import Mathlib

/-!
# z80asm: the expression evaluator of `num.c`

A shallow embedding of `src/num.c` (`eval`, `get_type`, `isari`, `axtoi`,
`aotoi`, `abtoi`, `strval`, `chk_v1`, `chk_v2`) and theorems about it.

Modelling conventions.

* A C string is a `List Char`; the terminating NUL is the end of the list, and
  a NUL character inside the list ends the string exactly as it would in
  memory.  The character code `(int) c` is `c.toNat` (exact for ASCII).
* The C type `int` is `Int`, reduced by `wrap32` after `+`, `-`, `*`, `<<` and
  after the multiply-and-add steps of the converters (two's complement, 32
  bits); `>>` is the arithmetic shift, `/` and `%` truncate towards zero.
* Operations without a result are explicit faults: division or modulo by
  zero, `INT_MIN / -1`, a shift count outside `0..31`, and a token that does
  not fit the buffer `char word[LINE_MAX]`.
* `eval` loops and recurses; the model is driven by a fuel counter that
  bounds the nesting of loop iterations and calls.  `none` means the fuel ran
  out; a run that returns does so for every larger fuel (`evalLoop_mono`), and
  `Returns ctx s r` says that some fuel suffices.
* The header `zz80asm.h` and the modules behind `asmerr`, `get_sym` and `pc`
  are not among the sources.  `LINE_MAX`, `SYMSIZE`, `pc` and `get_sym` are
  fields of the context `Ctx`; `STRSEP` and `asmerr` follow the specification.
-/

namespace Z80asm

/-! ## Machine integers -/

/-- Reduction of an integer to the 32-bit two's complement range. -/
def wrap32 (x : Int) : Int := (x + 2147483648) % 4294967296 - 2147483648

/-- The least `int`. -/
def INT_MIN : Int := -2147483648

/-- The greatest `int`. -/
def INT_MAX : Int := 2147483647

/-! ## Diagnostics, faults and results -/

/-- Error numbers passed to `asmerr` by `num.c`. -/
inductive Err
  | E_MISPAR
  | E_MISHYP
  | E_UNDSYM
  | E_VALOUT
  deriving DecidableEq, Repr

/-- Ways in which a run of `eval` has no defined result. -/
inductive Fault
  | divByZero
  | divOverflow
  | shiftCount
  | wordOverrun
  deriving DecidableEq, Repr

/-- Outcome of a completed run: the returned `int` with the diagnostics
reported on the way, in order, or a fault. -/
inductive Result
  | ret (val : Int) (diags : List Err)
  | fault (f : Fault)
  deriving DecidableEq, Repr

/-- Modelled from the spec: `asmerr` is not among the sources; by the spec
(`reportError`) it emits a diagnostic and does not alter control flow.  Here
it puts the error number in front of the diagnostics of the rest of the run. -/
def asmerr (e : Err) : Option Result → Option Result
  | some (Result.ret v ds) => some (Result.ret v (e :: ds))
  | r => r

/-- Sequencing of a nested call with what follows it: the diagnostics of the
call come first; a fault or exhausted fuel ends the run. -/
def andThen (r : Option Result) (k : Int → Option Result) : Option Result :=
  match r with
  | none => none
  | some (Result.fault f) => some (Result.fault f)
  | some (Result.ret v ds) =>
    match k v with
    | none => none
    | some (Result.fault f) => some (Result.fault f)
    | some (Result.ret w es) => some (Result.ret w (ds ++ es))

/-! ## Constants and collaborators -/

/-- Modelled from the spec: `STRSEP` is defined in `zz80asm.h`, which is not
among the sources; the spec's quoted literal `'AB'` is delimited by the
apostrophe (code 39). -/
def STRSEP : Char := Char.ofNat 39

/-- What `eval` reads from the rest of the assembler. -/
structure Ctx where
  /-- size of the token buffer `word` -/
  LINE_MAX : Nat
  /-- number of significant characters of a symbol name -/
  SYMSIZE : Nat
  /-- the location counter -/
  pc : Int
  /-- symbol table lookup: the value of the symbol, if it is defined -/
  get_sym : List Char → Option Int
  /-- the buffer holds at least one character and its NUL -/
  LINE_MAX_gt : 1 < LINE_MAX

/-! ## Character classes (`ctype.h`, "C" locale) -/

/-- C's `isdigit`. -/
def isdigit (c : Char) : Bool := 48 ≤ c.toNat && c.toNat ≤ 57

/-- C's `isspace`: space, `\t`, `\n`, `\v`, `\f`, `\r`. -/
def isspace (c : Char) : Bool := c.toNat = 32 || (9 ≤ c.toNat && c.toNat ≤ 13)

/-- C's `isxdigit`: `0-9`, `A-F`, `a-f`. -/
def isxdigit (c : Char) : Bool :=
  (48 ≤ c.toNat && c.toNat ≤ 57) || (65 ≤ c.toNat && c.toNat ≤ 70) ||
    (97 ≤ c.toNat && c.toNat ≤ 102)

/-- Function `isari`: the eleven operator characters. -/
def isari (c : Char) : Bool :=
  c == '+' || c == '-' || c == '*' ||
  c == '/' || c == '%' || c == '<' ||
  c == '>' || c == '|' || c == '&' ||
  c == '~' || c == '^'

/-! ## Token classification -/

/-- The operator symbols of the expression parser (the anonymous `enum`). -/
inductive Ope
  | OPEDEC | OPEHEX | OPEOCT | OPEBIN
  | OPESUB | OPEADD | OPEMUL | OPEDIV | OPEMOD
  | OPESHL | OPESHR | OPELOR | OPELAN | OPEXOR | OPECOM
  | OPESYM
  deriving DecidableEq, Repr

/-- Function `get_type`.  The empty string starts with NUL, which is neither
a digit nor an operator. -/
def get_type (s : List Char) : Ope :=
  match s with
  | [] => Ope.OPESYM
  | c :: _ =>
    if isdigit c then
      let l := s.getLast?.getD c
      if isdigit l then Ope.OPEDEC
      else if l = 'H' then Ope.OPEHEX
      else if l = 'B' then Ope.OPEBIN
      else if l = 'O' then Ope.OPEOCT
      else Ope.OPESYM
    else if c = '-' then Ope.OPESUB
    else if c = '+' then Ope.OPEADD
    else if c = '*' then Ope.OPEMUL
    else if c = '/' then Ope.OPEDIV
    else if c = '%' then Ope.OPEMOD
    else if c = '<' then Ope.OPESHL
    else if c = '>' then Ope.OPESHR
    else if c = '|' then Ope.OPELOR
    else if c = '&' then Ope.OPELAN
    else if c = '^' then Ope.OPEXOR
    else if c = '~' then Ope.OPECOM
    else Ope.OPESYM

/-! ## Converters -/

/-- Loop of `axtoi`, with `num` as accumulator. -/
def axtoiFrom (num : Int) : List Char → Int
  | [] => num
  | c :: str =>
    if isxdigit c then
      axtoiFrom (wrap32 (wrap32 (num * 16) +
        ((c.toNat : Int) - (if c.toNat ≤ 57 then 48 else 55)))) str
    else num

/-- Function `axtoi`. -/
def axtoi (str : List Char) : Int := axtoiFrom 0 str

/-- Loop of `aotoi`, with `num` as accumulator. -/
def aotoiFrom (num : Int) : List Char → Int
  | [] => num
  | c :: str =>
    if 48 ≤ c.toNat ∧ c.toNat ≤ 55 then
      aotoiFrom (wrap32 (wrap32 (num * 8) + ((c.toNat : Int) - 48))) str
    else num

/-- Function `aotoi`. -/
def aotoi (str : List Char) : Int := aotoiFrom 0 str

/-- Loop of `abtoi`, with `num` as accumulator. -/
def abtoiFrom (num : Int) : List Char → Int
  | [] => num
  | c :: str =>
    if 48 ≤ c.toNat ∧ c.toNat ≤ 49 then
      abtoiFrom (wrap32 (wrap32 (num * 2) + ((c.toNat : Int) - 48))) str
    else num

/-- Function `abtoi`. -/
def abtoi (str : List Char) : Int := abtoiFrom 0 str

/-- Loop of `strval`, with `num` as accumulator; it runs to the NUL. -/
def strvalFrom (num : Int) : List Char → Int
  | [] => num
  | c :: str =>
    if c.toNat = 0 then num
    else strvalFrom (wrap32 (wrap32 (num * 256) + (c.toNat : Int))) str

/-- Function `strval`. -/
def strval (str : List Char) : Int := strvalFrom 0 str

/-- Digit loop of the C library's `atoi`. -/
def atoiDigits (num : Int) : List Char → Int
  | [] => num
  | c :: str =>
    if isdigit c then atoiDigits (num * 10 + ((c.toNat : Int) - 48)) str
    else num

/-- The C library's `atoi`: leading white space, an optional sign, decimal
digits.  The standard defines the result when it fits an `int`; the model
wraps beyond. -/
def atoi : List Char → Int
  | [] => 0
  | c :: str =>
    if isspace c then atoi str
    else if c = '-' then wrap32 (-(atoiDigits 0 str))
    else if c = '+' then wrap32 (atoiDigits 0 str)
    else wrap32 (atoiDigits 0 (c :: str))

/-! ## The scanning loops of `eval` -/

/-- The loop `while (*s != ')')` of the parenthesis branch: the characters
copied to `word`, and the input after the `)`; `none` when the NUL is reached
first. -/
def scanParen : List Char → List Char × Option (List Char)
  | [] => ([], none)
  | c :: s =>
    if c = ')' then ([], some s)
    else if c.toNat = 0 then ([], none)
    else (c :: (scanParen s).1, (scanParen s).2)

/-- The loop `while (*s != STRSEP)` of the quote branch: the characters copied
to `word`, the input left (after the closing delimiter, or at the newline or
NUL that ended the scan), and whether the delimiter was found. -/
def scanQuote : List Char → List Char × List Char × Bool
  | [] => ([], [], false)
  | c :: s =>
    if c = STRSEP then ([], s, true)
    else if c = '\n' ∨ c.toNat = 0 then ([], c :: s, false)
    else (c :: (scanQuote s).1, (scanQuote s).2)

/-- The loop `while (!isspace(*s) && !isari(*s) && *s != 0)` of the word
branch: the characters copied to `word` and the input left. -/
def scanWord : List Char → List Char × List Char
  | [] => ([], [])
  | c :: s =>
    if !isspace c && !isari c && c.toNat ≠ 0 then
      (c :: (scanWord s).1, (scanWord s).2)
    else ([], c :: s)

/-- The string held by `word` after `word[SYMSIZE] = 0` when it is longer than
`SYMSIZE`. -/
def truncSym (ctx : Ctx) (word : List Char) : List Char :=
  if word.length > ctx.SYMSIZE then word.take ctx.SYMSIZE else word

/-! ## The operators -/

/-- The compound assignment `val OP= r` of the operator cases, `r` being the
value of `eval(s)`. -/
def applyOp (op : Ope) (val r : Int) : Except Fault Int :=
  match op with
  | Ope.OPESUB => Except.ok (wrap32 (val - r))
  | Ope.OPEADD => Except.ok (wrap32 (val + r))
  | Ope.OPEMUL => Except.ok (wrap32 (val * r))
  | Ope.OPEDIV =>
    if r = 0 then Except.error Fault.divByZero
    else if val = INT_MIN ∧ r = -1 then Except.error Fault.divOverflow
    else Except.ok (Int.tdiv val r)
  | Ope.OPEMOD =>
    if r = 0 then Except.error Fault.divByZero
    else if val = INT_MIN ∧ r = -1 then Except.error Fault.divOverflow
    else Except.ok (Int.tmod val r)
  | Ope.OPESHL =>
    if 0 ≤ r ∧ r < 32 then Except.ok (wrap32 (val * 2 ^ r.toNat))
    else Except.error Fault.shiftCount
  | Ope.OPESHR =>
    if 0 ≤ r ∧ r < 32 then Except.ok (val / 2 ^ r.toNat)
    else Except.error Fault.shiftCount
  | Ope.OPELOR => Except.ok (Int.lor val r)
  | Ope.OPELAN => Except.ok (Int.land val r)
  | Ope.OPEXOR => Except.ok (Int.xor val r)
  | Ope.OPECOM => Except.ok (~~~r)
  | _ => Except.ok val

/-- An operator case of the `switch`: `val OP= eval(s); goto eval_break;`. -/
def opCase (op : Ope) (val : Int) (r : Option Result) : Option Result :=
  andThen r (fun x =>
    match applyOp op val x with
    | Except.ok v => some (Result.ret v [])
    | Except.error f => some (Result.fault f))

/-! ## `eval` -/

/-- The `switch (get_type(word))` of `eval`, entered with accumulator `val`,
token `word` and input `s` after the token.  `rec v t` stands for what the run
does from the loop head with accumulator `v` and input `t`. -/
def evalSwitch (ctx : Ctx) (rec : Int → List Char → Option Result)
    (val : Int) (word s : List Char) : Option Result :=
  match get_type word with
  | Ope.OPESYM =>
    if word = ['$'] then rec ctx.pc s
    else
      match ctx.get_sym (truncSym ctx word) with
      | some v => rec v s
      | none => asmerr Err.E_UNDSYM (rec val s)
  | Ope.OPEDEC => rec (atoi word) s
  | Ope.OPEHEX => rec (axtoi word) s
  | Ope.OPEBIN => rec (abtoi word) s
  | Ope.OPEOCT => rec (aotoi word) s
  | op => opCase op val (rec 0 s)

/-- One iteration of `while (*s)` in `eval`, started with accumulator `val` at
input `s`.  `rec v t` stands for what the run does from a loop head with
accumulator `v` and input `t`: the `continue`/`break` back to the loop head is
`rec val s2`, and a nested call `eval(t)` is `rec 0 t`. -/
def evalBody (ctx : Ctx) (rec : Int → List Char → Option Result)
    (val : Int) (s : List Char) : Option Result :=
  match s with
  | [] => some (Result.ret val [])
  | c :: s1 =>
    if c.toNat = 0 then some (Result.ret val [])
    else if c = '(' then
      match scanParen s1 with
      | (word, none) =>
        if word.length > ctx.LINE_MAX then some (Result.fault Fault.wordOverrun)
        else asmerr Err.E_MISPAR (some (Result.ret val []))
      | (word, some s2) =>
        if word.length ≥ ctx.LINE_MAX then some (Result.fault Fault.wordOverrun)
        else andThen (rec 0 word) (fun v => rec v s2)
    else if c = STRSEP then
      match scanQuote s1 with
      | (word, s2, closed) =>
        if word.length ≥ ctx.LINE_MAX then some (Result.fault Fault.wordOverrun)
        else if closed then rec (strval word) s2
        else asmerr Err.E_MISHYP (rec (strval word) s2)
    else
      let ws := if isari c then ([c], s1) else scanWord (c :: s1)
      if ws.1.length ≥ ctx.LINE_MAX then some (Result.fault Fault.wordOverrun)
      else evalSwitch ctx rec val ws.1 ws.2

/-- The loop of `eval` from accumulator `val` and input `s`, with `fuel`
bounding the nesting of iterations and calls. -/
def evalLoop (ctx : Ctx) : Nat → Int → List Char → Option Result
  | 0, _, _ => none
  | fuel + 1, val, s => evalBody ctx (evalLoop ctx fuel) val s

/-- Function `eval`: `val = 0` and the loop. -/
def eval (ctx : Ctx) (fuel : Nat) (s : List Char) : Option Result :=
  evalLoop ctx fuel 0 s

/-- The call `eval(s)` returns `r`. -/
def Returns (ctx : Ctx) (s : List Char) (r : Result) : Prop :=
  ∃ fuel, eval ctx fuel s = some r

/-! ## Range checkers -/

/-- Function `chk_v1`: the value returned and the errors reported. -/
def chk_v1 (i : Int) : Int × List Err :=
  if i ≥ -255 ∧ i ≤ 255 then (i, []) else (0, [Err.E_VALOUT])

/-- Function `chk_v2`: the value returned and the errors reported. -/
def chk_v2 (i : Int) : Int × List Err :=
  if i ≥ -127 ∧ i ≤ 127 then (i, []) else (0, [Err.E_VALOUT])

/-! ## Contexts for examples -/

/-- A context for examples: a buffer of 2048 characters, symbols of 8
characters, location counter 256, and the symbols `LABEL` = 4660 and
`X` = -8. -/
def exampleCtx : Ctx where
  LINE_MAX := 2048
  SYMSIZE := 8
  pc := 256
  get_sym := fun n =>
    if n = ['L', 'A', 'B', 'E', 'L'] then some 4660
    else if n = ['X'] then some (-8)
    else none
  LINE_MAX_gt := by decide

/-! ## Specification-side definitions -/

/-- Value of a decimal digit character. -/
def decDigit (c : Char) : Nat := c.toNat - 48

/-- Value of a hexadecimal digit character: `0-9` are 0..9, `A-F` are 10..15. -/
def hexDigit (c : Char) : Nat := if isdigit c then c.toNat - 48 else c.toNat - 65 + 10

/-- Value of a digit string in a base, most significant digit first, starting
from `n`. -/
def digitsFrom (base : Nat) (digit : Char → Nat) (n : Nat) (w : List Char) : Nat :=
  w.foldl (fun m c => m * base + digit c) n

/-- Decimal value of a digit string. -/
def decVal (w : List Char) : Nat := digitsFrom 10 decDigit 0 w

/-- Base-16 value of a digit string. -/
def hexVal (w : List Char) : Nat := digitsFrom 16 hexDigit 0 w

/-- Base-8 value of a digit string. -/
def octVal (w : List Char) : Nat := digitsFrom 8 decDigit 0 w

/-- Base-2 value of a digit string. -/
def binVal (w : List Char) : Nat := digitsFrom 2 decDigit 0 w

/-- Big-endian packing of character codes, starting from `n`. -/
def packFrom (n : Nat) (b : List Char) : Nat :=
  b.foldl (fun m c => m * 256 + c.toNat) n

/-- Big-endian packing of the character codes of a string. -/
def packVal (b : List Char) : Nat := packFrom 0 b

/-- Characters that the word scan of `eval` copies: not white space, not an
operator, not NUL. -/
def wordChar (c : Char) : Bool := !isspace c && !isari c && c.toNat ≠ 0

/-- The word scan stops at the head of `t`. -/
def stopsWord : List Char → Prop
  | [] => True
  | c :: _ => wordChar c = false

instance : DecidablePred stopsWord := fun t =>
  match t with
  | [] => isTrue trivial
  | c :: _ => inferInstanceAs (Decidable (wordChar c = false))

/-- The loop `evalLoop` from accumulator `val` and input `s` returns `r`. -/
def LoopReturns (ctx : Ctx) (val : Int) (s : List Char) (r : Result) : Prop :=
  ∃ fuel, evalLoop ctx fuel val s = some r

/-- The kinds that `get_type` gives to the operator characters. -/
def isOperator (op : Ope) : Prop :=
  op = Ope.OPESUB ∨ op = Ope.OPEADD ∨ op = Ope.OPEMUL ∨ op = Ope.OPEDIV ∨ op = Ope.OPEMOD ∨
  op = Ope.OPESHL ∨ op = Ope.OPESHR ∨ op = Ope.OPELOR ∨ op = Ope.OPELAN ∨ op = Ope.OPEXOR ∨
  op = Ope.OPECOM

/-- The binary operators on `int` as the specification lists them: subtract,
add, multiply, divide, modulo, shift left, shift right, OR, AND, XOR; `none`
where the operation has no result. -/
def binop (c : Char) (a b : Int) : Option Int :=
  if c = '-' then some (wrap32 (a - b))
  else if c = '+' then some (wrap32 (a + b))
  else if c = '*' then some (wrap32 (a * b))
  else if c = '/' then
    (if b = 0 ∨ (a = INT_MIN ∧ b = -1) then none else some (Int.tdiv a b))
  else if c = '%' then
    (if b = 0 ∨ (a = INT_MIN ∧ b = -1) then none else some (Int.tmod a b))
  else if c = '<' then (if 0 ≤ b ∧ b < 32 then some (wrap32 (a * 2 ^ b.toNat)) else none)
  else if c = '>' then (if 0 ≤ b ∧ b < 32 then some (a / 2 ^ b.toNat) else none)
  else if c = '|' then some (Int.lor a b)
  else if c = '&' then some (Int.land a b)
  else if c = '^' then some (Int.xor a b)
  else none

/-- A symbol token: a non-empty word of the word scan that is not `$` and
whose first character is not a digit, `(` or the string delimiter. -/
def symbolToken (w : List Char) : Prop :=
  (∀ x ∈ w, wordChar x = true) ∧ w ≠ ['$'] ∧
    ∃ c t, w = c :: t ∧ isdigit c = false ∧ c ≠ '(' ∧ c ≠ STRSEP

/-- Characters of a hexadecimal literal as the specification lists them:
`0-9` and upper-case `A-F`. -/
def hexChar (c : Char) : Bool := isdigit c || (65 ≤ c.toNat && c.toNat ≤ 70)

/-- Characters of an octal literal: `0-7`. -/
def octChar (c : Char) : Bool := 48 ≤ c.toNat && c.toNat ≤ 55

/-- Characters of a binary literal: `0` and `1`. -/
def binChar (c : Char) : Bool := c == '0' || c == '1'

/-- A context whose symbol table binds a symbol named `$` (to 99), with
location counter 256. -/
def dollarCtx : Ctx where
  LINE_MAX := 2048
  SYMSIZE := 8
  pc := 256
  get_sym := fun n => if n = ['$'] then some 99 else none
  LINE_MAX_gt := by decide

/-- The operator kind of a first character, as the specification lists the
operator characters; `OPESYM` for every other character. -/
def opKind (c : Char) : Ope :=
  if c = '-' then Ope.OPESUB
  else if c = '+' then Ope.OPEADD
  else if c = '*' then Ope.OPEMUL
  else if c = '/' then Ope.OPEDIV
  else if c = '%' then Ope.OPEMOD
  else if c = '<' then Ope.OPESHL
  else if c = '>' then Ope.OPESHR
  else if c = '|' then Ope.OPELOR
  else if c = '&' then Ope.OPELAN
  else if c = '^' then Ope.OPEXOR
  else if c = '~' then Ope.OPECOM
  else Ope.OPESYM

/-- The classification rule of the specification, as a function of the first
and the last character of the token only. -/
def classify (first last : Char) : Ope :=
  if isdigit first then
    (if isdigit last then Ope.OPEDEC
     else if last = 'H' then Ope.OPEHEX
     else if last = 'B' then Ope.OPEBIN
     else if last = 'O' then Ope.OPEOCT
     else Ope.OPESYM)
  else opKind first

/-- The zero-filling (logical) right shift by `n` bits of the 32-bit two's
complement pattern of `v`, read back as a signed value. -/
def lsr32 (v : Int) (n : Nat) : Int := wrap32 ((v % 4294967296) / 2 ^ n)

/-- A run that returns or ends in an arithmetic fault, and does not overrun
the token buffer. -/
def Terminates (o : Option Result) : Prop :=
  ∃ r, o = some r ∧ r ≠ Result.fault Fault.wordOverrun

/-! ## Machine integers: lemmas -/

theorem wrap32_of_range (x : Int) (h1 : -2147483648 ≤ x) (h2 : x ≤ 2147483647) :
    wrap32 x = x := by
  unfold wrap32; omega

theorem wrap32_natCast (n : Nat) (h : (n : Int) ≤ INT_MAX) : wrap32 (n : Int) = n := by
  unfold INT_MAX at h; unfold wrap32; omega

/-! ## Fuel -/

theorem asmerr_mono (e : Err) (a b : Option Result) (r : Result)
    (hab : ∀ r, a = some r → b = some r) (h : asmerr e a = some r) :
    asmerr e b = some r := by
  cases a with
  | none => simp [asmerr] at h
  | some x => rw [hab x rfl]; exact h

theorem andThen_mono (a b : Option Result) (k l : Int → Option Result) (r : Result)
    (hab : ∀ r, a = some r → b = some r) (hkl : ∀ v r, k v = some r → l v = some r)
    (h : andThen a k = some r) : andThen b l = some r := by
  cases a with
  | none => simp [andThen] at h
  | some x =>
    rw [hab x rfl]
    cases x with
    | fault f => exact h
    | ret v ds =>
      cases hk : k v with
      | none => simp [andThen, hk] at h
      | some y =>
        have hl := hkl v y hk
        simp only [andThen, hk] at h
        simp only [andThen, hl]
        exact h

theorem opCase_mono (op : Ope) (val : Int) (a b : Option Result) (r : Result)
    (hab : ∀ r, a = some r → b = some r) (h : opCase op val a = some r) :
    opCase op val b = some r :=
  andThen_mono a b _ _ r hab (fun _ _ hk => hk) h

theorem evalSwitch_mono (ctx : Ctx) (f g : Int → List Char → Option Result)
    (hfg : ∀ v t r, f v t = some r → g v t = some r)
    (val : Int) (word s : List Char) (r : Result)
    (h : evalSwitch ctx f val word s = some r) : evalSwitch ctx g val word s = some r := by
  unfold evalSwitch at h ⊢
  generalize get_type word = t at h ⊢
  cases t
  case OPESYM =>
    dsimp only at h ⊢
    by_cases hw : word = ['$']
    · rw [if_pos hw] at h ⊢
      exact hfg _ _ _ h
    · rw [if_neg hw] at h ⊢
      generalize ctx.get_sym (truncSym ctx word) = o at h ⊢
      cases o with
      | some v => exact hfg _ _ _ h
      | none => exact asmerr_mono _ _ _ _ (hfg _ _) h
  case OPEDEC => exact hfg _ _ _ h
  case OPEHEX => exact hfg _ _ _ h
  case OPEBIN => exact hfg _ _ _ h
  case OPEOCT => exact hfg _ _ _ h
  all_goals exact opCase_mono _ _ _ _ _ (hfg _ _) h

theorem evalBody_cons (ctx : Ctx) (rec : Int → List Char → Option Result) (val : Int)
    (c : Char) (s1 : List Char) :
    evalBody ctx rec val (c :: s1) =
    if c.toNat = 0 then some (Result.ret val [])
    else if c = '(' then
      match scanParen s1 with
      | (word, none) =>
        if word.length > ctx.LINE_MAX then some (Result.fault Fault.wordOverrun)
        else asmerr Err.E_MISPAR (some (Result.ret val []))
      | (word, some s2) =>
        if word.length ≥ ctx.LINE_MAX then some (Result.fault Fault.wordOverrun)
        else andThen (rec 0 word) (fun v => rec v s2)
    else if c = STRSEP then
      match scanQuote s1 with
      | (word, s2, closed) =>
        if word.length ≥ ctx.LINE_MAX then some (Result.fault Fault.wordOverrun)
        else if closed then rec (strval word) s2
        else asmerr Err.E_MISHYP (rec (strval word) s2)
    else
      let ws := if isari c then ([c], s1) else scanWord (c :: s1)
      if ws.1.length ≥ ctx.LINE_MAX then some (Result.fault Fault.wordOverrun)
      else evalSwitch ctx rec val ws.1 ws.2 := rfl

theorem evalBody_mono (ctx : Ctx) (f g : Int → List Char → Option Result)
    (hfg : ∀ v t r, f v t = some r → g v t = some r)
    (val : Int) (s : List Char) (r : Result)
    (h : evalBody ctx f val s = some r) : evalBody ctx g val s = some r := by
  cases s with
  | nil => exact h
  | cons c s1 =>
    rw [evalBody_cons] at h ⊢
    by_cases h0 : c.toNat = 0
    · rw [if_pos h0] at h ⊢
      exact h
    rw [if_neg h0] at h ⊢
    by_cases hp : c = '('
    · rw [if_pos hp] at h ⊢
      generalize scanParen s1 = sp at h ⊢
      rcases sp with ⟨word, _ | s2⟩
      · exact h
      · dsimp only at h ⊢
        by_cases hl : word.length ≥ ctx.LINE_MAX
        · rw [if_pos hl] at h ⊢
          exact h
        · rw [if_neg hl] at h ⊢
          exact andThen_mono _ _ _ _ _ (hfg _ _) (fun v => hfg v _) h
    rw [if_neg hp] at h ⊢
    by_cases hq : c = STRSEP
    · rw [if_pos hq] at h ⊢
      generalize scanQuote s1 = sq at h ⊢
      rcases sq with ⟨word, s2, closed⟩
      dsimp only at h ⊢
      by_cases hl : word.length ≥ ctx.LINE_MAX
      · rw [if_pos hl] at h ⊢
        exact h
      · rw [if_neg hl] at h ⊢
        cases closed with
        | true => exact hfg _ _ _ h
        | false => exact asmerr_mono _ _ _ _ (hfg _ _) h
    rw [if_neg hq] at h ⊢
    by_cases hl : (if isari c then ([c], s1) else scanWord (c :: s1)).1.length ≥ ctx.LINE_MAX
    · rw [if_pos hl] at h ⊢
      exact h
    · rw [if_neg hl] at h ⊢
      exact evalSwitch_mono ctx f g hfg _ _ _ _ h

theorem evalLoop_succ (ctx : Ctx) (n : Nat) :
    ∀ (val : Int) (s : List Char) (r : Result),
      evalLoop ctx n val s = some r → evalLoop ctx (n + 1) val s = some r := by
  induction n with
  | zero => intro val s r h; simp [evalLoop] at h
  | succ n ih =>
    intro val s r h
    exact evalBody_mono ctx _ _ ih val s r h

theorem evalLoop_mono (ctx : Ctx) (n m : Nat) (hnm : n ≤ m) (val : Int) (s : List Char)
    (r : Result) (h : evalLoop ctx n val s = some r) : evalLoop ctx m val s = some r := by
  induction hnm with
  | refl => exact h
  | step _ ih => exact evalLoop_succ ctx _ val s r ih

theorem LoopReturns_unique (ctx : Ctx) (val : Int) (s : List Char) (r1 r2 : Result)
    (h1 : LoopReturns ctx val s r1) (h2 : LoopReturns ctx val s r2) : r1 = r2 := by
  obtain ⟨n, hn⟩ := h1
  obtain ⟨m, hm⟩ := h2
  have a := evalLoop_mono ctx n (max n m) (le_max_left _ _) val s r1 hn
  have b := evalLoop_mono ctx m (max n m) (le_max_right _ _) val s r2 hm
  rw [a] at b
  exact Option.some.inj b

theorem Returns_unique (ctx : Ctx) (s : List Char) (r1 r2 : Result)
    (h1 : Returns ctx s r1) (h2 : Returns ctx s r2) : r1 = r2 :=
  LoopReturns_unique ctx 0 s r1 r2 h1 h2

/-! ## Character classes: lemmas -/

theorem char_eq_iff_toNat (c d : Char) : c = d ↔ c.toNat = d.toNat := by
  constructor
  · intro h; rw [h]
  · intro h
    apply Char.ext
    apply UInt32.ext
    exact h

theorem isari_iff (c : Char) :
    isari c = true ↔ (c.toNat = 43 ∨ c.toNat = 45 ∨ c.toNat = 42 ∨ c.toNat = 47 ∨
      c.toNat = 37 ∨ c.toNat = 60 ∨ c.toNat = 62 ∨ c.toNat = 124 ∨ c.toNat = 38 ∨
      c.toNat = 126 ∨ c.toNat = 94) := by
  simp [isari, char_eq_iff_toNat, or_assoc]

theorem isdigit_iff (c : Char) : isdigit c = true ↔ (48 ≤ c.toNat ∧ c.toNat ≤ 57) := by
  simp [isdigit]

theorem isspace_iff (c : Char) :
    isspace c = true ↔ (c.toNat = 32 ∨ (9 ≤ c.toNat ∧ c.toNat ≤ 13)) := by
  simp [isspace]

theorem wordChar_iff (c : Char) :
    wordChar c = true ↔ (¬ isspace c = true ∧ ¬ isari c = true ∧ c.toNat ≠ 0) := by
  simp [wordChar, and_assoc]

theorem wordChar_of_isdigit (c : Char) (h : isdigit c = true) : wordChar c = true := by
  rw [wordChar_iff, isspace_iff, isari_iff]
  rw [isdigit_iff] at h
  omega

theorem paren_toNat : '('.toNat = 40 := by decide

theorem STRSEP_toNat : STRSEP.toNat = 39 := by decide

/-! ## The scanning loops: lemmas -/

theorem scanWord_append (w t : List Char) (hw : ∀ c ∈ w, wordChar c = true)
    (ht : stopsWord t) : scanWord (w ++ t) = (w, t) := by
  induction w with
  | nil =>
    cases t with
    | nil => rfl
    | cons c t =>
      have hc : (!isspace c && !isari c && decide (c.toNat ≠ 0)) = false := ht
      show scanWord (c :: t) = ([], c :: t)
      unfold scanWord
      rw [hc]
      rfl
  | cons c w ih =>
    have hc : (!isspace c && !isari c && decide (c.toNat ≠ 0)) = true :=
      hw c (List.mem_cons_self _ _)
    have ih2 := ih (fun x hx => hw x (List.mem_cons_of_mem _ hx))
    show scanWord (c :: (w ++ t)) = (c :: w, t)
    unfold scanWord
    rw [if_pos hc, ih2]

theorem scanParen_append (b t : List Char) (hb : ∀ c ∈ b, c ≠ ')' ∧ c.toNat ≠ 0) :
    scanParen (b ++ ')' :: t) = (b, some t) := by
  induction b with
  | nil => simp [scanParen]
  | cons c b ih =>
    have hc := hb c (List.mem_cons_self _ _)
    have ih2 := ih (fun x hx => hb x (List.mem_cons_of_mem _ hx))
    show scanParen (c :: (b ++ ')' :: t)) = (c :: b, some t)
    unfold scanParen
    rw [if_neg hc.1, if_neg hc.2, ih2]

theorem scanQuote_append (b t : List Char)
    (hb : ∀ c ∈ b, c ≠ STRSEP ∧ c ≠ '\n' ∧ c.toNat ≠ 0) :
    scanQuote (b ++ STRSEP :: t) = (b, t, true) := by
  induction b with
  | nil => simp [scanQuote]
  | cons c b ih =>
    have hc := hb c (List.mem_cons_self _ _)
    have ih2 := ih (fun x hx => hb x (List.mem_cons_of_mem _ hx))
    have hor : ¬ (c = '\n' ∨ c.toNat = 0) := by
      intro h; rcases h with h | h
      · exact hc.2.1 h
      · exact hc.2.2 h
    show scanQuote (c :: (b ++ STRSEP :: t)) = (c :: b, t, true)
    unfold scanQuote
    rw [if_neg hc.1, if_neg hor, ih2]

/-! ## Token classification: lemmas -/

theorem get_type_digit_last (c l : Char) (w : List Char) (hc : isdigit c = true) :
    get_type ((c :: w) ++ [l]) =
      if isdigit l then Ope.OPEDEC
      else if l = 'H' then Ope.OPEHEX
      else if l = 'B' then Ope.OPEBIN
      else if l = 'O' then Ope.OPEOCT
      else Ope.OPESYM := by
  have hl : (c :: (w ++ [l])).getLast? = some l := by
    rw [← List.cons_append, List.getLast?_append]
    simp
  simp only [List.cons_append, get_type, hc, if_true, hl, Option.getD_some]

theorem get_type_decimal (d : List Char) (hne : d ≠ []) (hd : ∀ c ∈ d, isdigit c = true) :
    get_type d = Ope.OPEDEC := by
  cases d with
  | nil => exact absurd rfl hne
  | cons c w =>
    have hc := hd c (List.mem_cons_self _ _)
    cases hl : (c :: w).getLast? with
    | none => simp at hl
    | some l =>
      have hmem : l ∈ c :: w := List.mem_of_getLast?_eq_some hl
      have hld := hd l hmem
      simp only [get_type, hc, if_true, hl, Option.getD_some, hld]

theorem get_type_symbol (c : Char) (w : List Char) (hd : isdigit c = false)
    (ha : isari c = false) : get_type (c :: w) = Ope.OPESYM := by
  have hn : ∀ d : Char, isari d = true → c ≠ d := by
    intro d hd2 h; rw [h] at ha; rw [ha] at hd2; exact Bool.noConfusion hd2
  simp only [get_type, hd, Bool.false_eq_true, if_false,
    if_neg (hn '-' (by decide)), if_neg (hn '+' (by decide)), if_neg (hn '*' (by decide)),
    if_neg (hn '/' (by decide)), if_neg (hn '%' (by decide)), if_neg (hn '<' (by decide)),
    if_neg (hn '>' (by decide)), if_neg (hn '|' (by decide)), if_neg (hn '&' (by decide)),
    if_neg (hn '^' (by decide)), if_neg (hn '~' (by decide))]

/-! ## Converters: lemmas -/

theorem le_digitsFrom (base : Nat) (digit : Char → Nat) (hb : 1 ≤ base) (w : List Char) :
    ∀ n : Nat, n ≤ digitsFrom base digit n w := by
  induction w with
  | nil => intro n; exact le_refl n
  | cons c w ih =>
    intro n
    have h1 : n ≤ n * base + digit c := by nlinarith
    exact le_trans h1 (ih (n * base + digit c))

theorem le_packFrom (b : List Char) : ∀ n : Nat, n ≤ packFrom n b := by
  induction b with
  | nil => intro n; exact le_refl n
  | cons c b ih =>
    intro n
    have h1 : n ≤ n * 256 + c.toNat := by omega
    exact le_trans h1 (ih (n * 256 + c.toNat))

theorem wrap32_step (a b : Int) (ha : 0 ≤ a) (hb : 0 ≤ b) (h : a + b ≤ 2147483647) :
    wrap32 (wrap32 a + b) = a + b := by
  unfold wrap32; omega

theorem digit_step (base n : Nat) (digit : Char → Nat) (c : Char) (w : List Char)
    (hb : 1 ≤ base)
    (hn : (digitsFrom base digit n (c :: w) : Int) ≤ INT_MAX) :
    wrap32 (wrap32 ((n : Int) * (base : Int)) + ((digit c : Nat) : Int)) =
      ((n * base + digit c : Nat) : Int) := by
  have hle := le_digitsFrom base digit hb w (n * base + digit c)
  have h3 : ((n * base + digit c : Nat) : Int) ≤ 2147483647 :=
    le_trans (Int.ofNat_le.2 hle) hn
  push_cast at h3 ⊢
  exact wrap32_step _ _ (by positivity) (by positivity) h3

theorem atoiDigits_eq (d : List Char) (hd : ∀ c ∈ d, isdigit c = true) :
    ∀ n : Nat, atoiDigits (n : Int) d = (digitsFrom 10 decDigit n d : Nat) := by
  induction d with
  | nil => intro n; rfl
  | cons c d ih =>
    intro n
    have hc := hd c (List.mem_cons_self _ _)
    have hc2 := (isdigit_iff c).1 hc
    have ih2 := ih (fun x hx => hd x (List.mem_cons_of_mem _ hx)) (n * 10 + decDigit c)
    have e : (n : Int) * 10 + ((c.toNat : Int) - 48) = ((n * 10 + decDigit c : Nat) : Int) := by
      unfold decDigit; omega
    show atoiDigits (n : Int) (c :: d) = _
    unfold atoiDigits
    rw [if_pos hc, e, ih2]
    rfl

theorem atoi_decimal (d : List Char) (hne : d ≠ []) (hd : ∀ c ∈ d, isdigit c = true) :
    atoi d = wrap32 (decVal d : Nat) := by
  cases d with
  | nil => exact absurd rfl hne
  | cons c w =>
    have hc := (isdigit_iff c).1 (hd c (List.mem_cons_self _ _))
    have hs : ¬ isspace c = true := by rw [isspace_iff]; omega
    have hm : c ≠ '-' := by
      rw [Ne, char_eq_iff_toNat]; have e : '-'.toNat = 45 := by decide
      omega
    have hp : c ≠ '+' := by
      rw [Ne, char_eq_iff_toNat]; have e : '+'.toNat = 43 := by decide
      omega
    unfold atoi
    rw [if_neg hs, if_neg hm, if_neg hp]
    have := atoiDigits_eq (c :: w) hd 0
    rw [Nat.cast_zero] at this
    rw [this]
    rfl

theorem axtoiFrom_eq (w t : List Char)
    (hw : ∀ c ∈ w, (48 ≤ c.toNat ∧ c.toNat ≤ 57) ∨ (65 ≤ c.toNat ∧ c.toNat ≤ 70))
    (ht : ∀ c, t.head? = some c → isxdigit c = false) :
    ∀ n : Nat, (digitsFrom 16 hexDigit n w : Int) ≤ INT_MAX →
      axtoiFrom (n : Int) (w ++ t) = (digitsFrom 16 hexDigit n w : Nat) := by
  induction w with
  | nil =>
    intro n _
    cases t with
    | nil => rfl
    | cons c t =>
      have hc := ht c rfl
      show axtoiFrom (n : Int) (c :: t) = _
      unfold axtoiFrom
      rw [hc]
      rfl
  | cons c w ih =>
    intro n hn
    have hc := hw c (List.mem_cons_self _ _)
    have hx : isxdigit c = true := by
      simp only [isxdigit, Bool.or_eq_true, Bool.and_eq_true, decide_eq_true_eq]
      omega
    have hn2 : (digitsFrom 16 hexDigit (n * 16 + hexDigit c) w : Int) ≤ INT_MAX := hn
    have ih2 := ih (fun x hx => hw x (List.mem_cons_of_mem _ hx)) (n * 16 + hexDigit c) hn2
    have hdig : ((c.toNat : Int) - (if c.toNat ≤ 57 then 48 else 55)) = (hexDigit c : Nat) := by
      unfold hexDigit isdigit
      by_cases h57 : c.toNat ≤ 57
      · have h48 : 48 ≤ c.toNat := by omega
        simp only [h57, h48, if_true, decide_True, Bool.and_self]
        omega
      · simp only [h57, if_false, decide_False, Bool.and_false, Bool.false_eq_true]
        omega
    have e := digit_step 16 n hexDigit c w (by decide) hn
    show axtoiFrom (n : Int) (c :: (w ++ t)) = _
    unfold axtoiFrom
    rw [if_pos hx, hdig]
    exact e.symm ▸ ih2

theorem aotoiFrom_eq (w t : List Char)
    (hw : ∀ c ∈ w, 48 ≤ c.toNat ∧ c.toNat ≤ 55)
    (ht : ∀ c, t.head? = some c → ¬ (48 ≤ c.toNat ∧ c.toNat ≤ 55)) :
    ∀ n : Nat, (digitsFrom 8 decDigit n w : Int) ≤ INT_MAX →
      aotoiFrom (n : Int) (w ++ t) = (digitsFrom 8 decDigit n w : Nat) := by
  induction w with
  | nil =>
    intro n _
    cases t with
    | nil => rfl
    | cons c t =>
      have hc := ht c rfl
      show aotoiFrom (n : Int) (c :: t) = _
      unfold aotoiFrom
      rw [if_neg hc]
      rfl
  | cons c w ih =>
    intro n hn
    have hc := hw c (List.mem_cons_self _ _)
    have hn2 : (digitsFrom 8 decDigit (n * 8 + decDigit c) w : Int) ≤ INT_MAX := hn
    have ih2 := ih (fun x hx => hw x (List.mem_cons_of_mem _ hx)) (n * 8 + decDigit c) hn2
    have hd : (c.toNat : Int) - 48 = ((decDigit c : Nat) : Int) := by
      unfold decDigit; omega
    have e := digit_step 8 n decDigit c w (by decide) hn
    show aotoiFrom (n : Int) (c :: (w ++ t)) = _
    unfold aotoiFrom
    rw [if_pos hc, hd]
    exact e.symm ▸ ih2

theorem abtoiFrom_eq (w t : List Char)
    (hw : ∀ c ∈ w, 48 ≤ c.toNat ∧ c.toNat ≤ 49)
    (ht : ∀ c, t.head? = some c → ¬ (48 ≤ c.toNat ∧ c.toNat ≤ 49)) :
    ∀ n : Nat, (digitsFrom 2 decDigit n w : Int) ≤ INT_MAX →
      abtoiFrom (n : Int) (w ++ t) = (digitsFrom 2 decDigit n w : Nat) := by
  induction w with
  | nil =>
    intro n _
    cases t with
    | nil => rfl
    | cons c t =>
      have hc := ht c rfl
      show abtoiFrom (n : Int) (c :: t) = _
      unfold abtoiFrom
      rw [if_neg hc]
      rfl
  | cons c w ih =>
    intro n hn
    have hc := hw c (List.mem_cons_self _ _)
    have hn2 : (digitsFrom 2 decDigit (n * 2 + decDigit c) w : Int) ≤ INT_MAX := hn
    have ih2 := ih (fun x hx => hw x (List.mem_cons_of_mem _ hx)) (n * 2 + decDigit c) hn2
    have hd : (c.toNat : Int) - 48 = ((decDigit c : Nat) : Int) := by
      unfold decDigit; omega
    have e := digit_step 2 n decDigit c w (by decide) hn
    show abtoiFrom (n : Int) (c :: (w ++ t)) = _
    unfold abtoiFrom
    rw [if_pos hc, hd]
    exact e.symm ▸ ih2

theorem strvalFrom_eq (b : List Char) (hb : ∀ c ∈ b, c.toNat ≠ 0) :
    ∀ n : Nat, strvalFrom (wrap32 (n : Int)) b = wrap32 (packFrom n b : Nat) := by
  induction b with
  | nil => intro n; rfl
  | cons c b ih =>
    intro n
    have hc := hb c (List.mem_cons_self _ _)
    have ih2 := ih (fun x hx => hb x (List.mem_cons_of_mem _ hx)) (n * 256 + c.toNat)
    have e : wrap32 (wrap32 (wrap32 (n : Int) * 256) + (c.toNat : Int)) =
        wrap32 ((n * 256 + c.toNat : Nat) : Int) := by
      unfold wrap32
      omega
    show strvalFrom (wrap32 (n : Int)) (c :: b) = _
    unfold strvalFrom
    rw [if_neg hc, e, ih2]
    rfl

theorem strval_eq (b : List Char) (hb : ∀ c ∈ b, c.toNat ≠ 0) :
    strval b = wrap32 (packVal b : Nat) := by
  have h := strvalFrom_eq b hb 0
  have e : wrap32 ((0 : Nat) : Int) = 0 := by decide
  rw [e] at h
  exact h

theorem packFrom_lt (b : List Char) (hb : ∀ c ∈ b, c.toNat < 128) :
    ∀ n : Nat, packFrom n b < (n + 1) * 256 ^ b.length := by
  induction b with
  | nil => intro n; simp [packFrom]
  | cons c b ih =>
    intro n
    have hc := hb c (List.mem_cons_self _ _)
    have ih2 := ih (fun x hx => hb x (List.mem_cons_of_mem _ hx)) (n * 256 + c.toNat)
    have h1 : (n * 256 + c.toNat + 1) * 256 ^ b.length ≤ (n + 1) * 256 ^ (b.length + 1) := by
      rw [pow_succ]
      have : n * 256 + c.toNat + 1 ≤ (n + 1) * 256 := by omega
      calc (n * 256 + c.toNat + 1) * 256 ^ b.length
          ≤ ((n + 1) * 256) * 256 ^ b.length := Nat.mul_le_mul_right _ this
        _ = (n + 1) * (256 ^ b.length * 256) := by ring
    exact lt_of_lt_of_le ih2 h1

/-! ## One iteration of the loop: lemmas -/

theorem asmerr_ret (e : Err) (v : Int) (ds : List Err) :
    asmerr e (some (Result.ret v ds)) = some (Result.ret v (e :: ds)) := rfl

theorem andThen_ret (v : Int) (ds : List Err) (k : Int → Option Result) (w : Int)
    (es : List Err) (hk : k v = some (Result.ret w es)) :
    andThen (some (Result.ret v ds)) k = some (Result.ret w (ds ++ es)) := by
  simp only [andThen, hk]

theorem andThen_ret_fault (v : Int) (ds : List Err) (k : Int → Option Result) (f : Fault)
    (hk : k v = some (Result.fault f)) :
    andThen (some (Result.ret v ds)) k = some (Result.fault f) := by
  simp only [andThen, hk]

theorem opCase_ret (op : Ope) (val v x : Int) (ds : List Err)
    (h : applyOp op val v = Except.ok x) :
    opCase op val (some (Result.ret v ds)) = some (Result.ret x ds) := by
  simp only [opCase, andThen, h, List.append_nil]

theorem opCase_fault (op : Ope) (val v : Int) (ds : List Err) (f : Fault)
    (h : applyOp op val v = Except.error f) :
    opCase op val (some (Result.ret v ds)) = some (Result.fault f) := by
  simp only [opCase, andThen, h]

theorem stopsWord_ari (c : Char) (t : List Char) (hc : isari c = true) :
    stopsWord (c :: t) := by
  show wordChar c = false
  simp [wordChar, hc]

theorem evalBody_nil (ctx : Ctx) (rec : Int → List Char → Option Result) (val : Int) :
    evalBody ctx rec val [] = some (Result.ret val []) := rfl

theorem evalBody_word (ctx : Ctx) (rec : Int → List Char → Option Result) (val : Int)
    (c : Char) (w t : List Char) (hw : ∀ x ∈ c :: w, wordChar x = true)
    (hp : c ≠ '(') (hq : c ≠ STRSEP) (ht : stopsWord t)
    (hl : (c :: w).length < ctx.LINE_MAX) :
    evalBody ctx rec val ((c :: w) ++ t) = evalSwitch ctx rec val (c :: w) t := by
  have hc := (wordChar_iff c).1 (hw c (List.mem_cons_self _ _))
  have hs := scanWord_append (c :: w) t hw ht
  rw [List.cons_append] at hs ⊢
  have hl2 : ¬ (c :: w).length ≥ ctx.LINE_MAX := by omega
  rw [evalBody_cons, if_neg hc.2.2, if_neg hp, if_neg hq, if_neg hc.2.1, hs]
  dsimp only
  rw [if_neg hl2]

theorem get_type_ari_cases (c : Char) (hc : isari c = true) : isOperator (get_type [c]) := by
  have key : ∀ d : Char, isOperator (get_type [d]) → c.toNat = d.toNat →
      isOperator (get_type [c]) := by
    intro d hd h
    rw [(char_eq_iff_toNat c d).2 h]
    exact hd
  unfold isOperator at key ⊢
  rcases (isari_iff c).1 hc with h | h | h | h | h | h | h | h | h | h | h
  · exact key '+' (by decide) h
  · exact key '-' (by decide) h
  · exact key '*' (by decide) h
  · exact key '/' (by decide) h
  · exact key '%' (by decide) h
  · exact key '<' (by decide) h
  · exact key '>' (by decide) h
  · exact key '|' (by decide) h
  · exact key '&' (by decide) h
  · exact key '~' (by decide) h
  · exact key '^' (by decide) h

theorem evalSwitch_operator (ctx : Ctx) (rec : Int → List Char → Option Result) (val : Int)
    (word t : List Char) (op : Ope) (hop : isOperator op) (hgt : get_type word = op) :
    evalSwitch ctx rec val word t = opCase op val (rec 0 t) := by
  unfold evalSwitch
  rw [hgt]
  rcases hop with h | h | h | h | h | h | h | h | h | h | h <;> rw [h]

theorem evalBody_ari (ctx : Ctx) (rec : Int → List Char → Option Result) (val : Int)
    (c : Char) (t : List Char) (hc : isari c = true) :
    evalBody ctx rec val (c :: t) = opCase (get_type [c]) val (rec 0 t) := by
  have hn := (isari_iff c).1 hc
  have h0 : ¬ c.toNat = 0 := by omega
  have hp : c ≠ '(' := by
    rw [Ne, char_eq_iff_toNat, paren_toNat]; omega
  have hq : c ≠ STRSEP := by
    rw [Ne, char_eq_iff_toNat, STRSEP_toNat]; omega
  have hl2 : ¬ [c].length ≥ ctx.LINE_MAX := by
    have := ctx.LINE_MAX_gt
    simp only [List.length_singleton]; omega
  have hsw : evalSwitch ctx rec val [c] t = opCase (get_type [c]) val (rec 0 t) :=
    evalSwitch_operator ctx rec val [c] t (get_type [c]) (get_type_ari_cases c hc) rfl
  rw [evalBody_cons, if_neg h0, if_neg hp, if_neg hq, if_pos hc]
  dsimp only
  rw [if_neg hl2, hsw]

theorem evalBody_paren (ctx : Ctx) (rec : Int → List Char → Option Result) (val : Int)
    (b t : List Char) (hb : ∀ c ∈ b, c ≠ ')' ∧ c.toNat ≠ 0) (hl : b.length < ctx.LINE_MAX) :
    evalBody ctx rec val ('(' :: (b ++ ')' :: t)) = andThen (rec 0 b) (fun v => rec v t) := by
  have h0 : ¬ '('.toNat = 0 := by decide
  have hl2 : ¬ b.length ≥ ctx.LINE_MAX := by omega
  rw [evalBody_cons, if_neg h0, if_pos rfl, scanParen_append b t hb]
  dsimp only
  rw [if_neg hl2]

theorem evalBody_quote (ctx : Ctx) (rec : Int → List Char → Option Result) (val : Int)
    (b t : List Char) (hb : ∀ c ∈ b, c ≠ STRSEP ∧ c ≠ '\n' ∧ c.toNat ≠ 0)
    (hl : b.length < ctx.LINE_MAX) :
    evalBody ctx rec val (STRSEP :: (b ++ STRSEP :: t)) = rec (strval b) t := by
  have h0 : ¬ STRSEP.toNat = 0 := by decide
  have hp : ¬ STRSEP = '(' := by decide
  have hl2 : ¬ b.length ≥ ctx.LINE_MAX := by omega
  rw [evalBody_cons, if_neg h0, if_neg hp, if_pos rfl, scanQuote_append b t hb]
  dsimp only
  rw [if_neg hl2, if_pos rfl]

/-! ## Tokens at the loop head: lemmas -/

theorem digit_ne_paren (c : Char) (hc : isdigit c = true) : c ≠ '(' := by
  rw [isdigit_iff] at hc
  rw [Ne, char_eq_iff_toNat, paren_toNat]; omega

theorem digit_ne_STRSEP (c : Char) (hc : isdigit c = true) : c ≠ STRSEP := by
  rw [isdigit_iff] at hc
  rw [Ne, char_eq_iff_toNat, STRSEP_toNat]; omega

/-- A decimal literal at the loop head assigns its value to the accumulator. -/
theorem evalLoop_decimal (ctx : Ctx) (n : Nat) (val : Int) (d t : List Char)
    (hne : d ≠ []) (hd : ∀ c ∈ d, isdigit c = true) (ht : stopsWord t)
    (hl : d.length < ctx.LINE_MAX) :
    evalLoop ctx (n + 1) val (d ++ t) = evalLoop ctx n (wrap32 (decVal d : Nat)) t := by
  cases d with
  | nil => exact absurd rfl hne
  | cons c w =>
    have hc := hd c (List.mem_cons_self _ _)
    show evalBody ctx (evalLoop ctx n) val ((c :: w) ++ t) = _
    rw [evalBody_word ctx _ val c w t (fun x hx => wordChar_of_isdigit x (hd x hx))
      (digit_ne_paren c hc) (digit_ne_STRSEP c hc) ht hl]
    unfold evalSwitch
    rw [get_type_decimal (c :: w) hne hd, atoi_decimal (c :: w) hne hd]

/-- An operator character at the loop head combines the accumulator with the
value of the rest of the input and ends the run. -/
theorem evalLoop_ari (ctx : Ctx) (n : Nat) (val : Int) (c : Char) (t : List Char)
    (hc : isari c = true) :
    evalLoop ctx (n + 1) val (c :: t) = opCase (get_type [c]) val (evalLoop ctx n 0 t) :=
  evalBody_ari ctx (evalLoop ctx n) val c t hc

/-- A closed group at the loop head is evaluated on its own and becomes the
accumulator. -/
theorem evalLoop_paren (ctx : Ctx) (n : Nat) (val : Int) (b t : List Char)
    (hb : ∀ c ∈ b, c ≠ ')' ∧ c.toNat ≠ 0) (hl : b.length < ctx.LINE_MAX) :
    evalLoop ctx (n + 1) val ('(' :: (b ++ ')' :: t)) =
      andThen (evalLoop ctx n 0 b) (fun v => evalLoop ctx n v t) :=
  evalBody_paren ctx (evalLoop ctx n) val b t hb hl

/-- A closed quoted literal at the loop head assigns its packed value. -/
theorem evalLoop_quote (ctx : Ctx) (n : Nat) (val : Int) (b t : List Char)
    (hb : ∀ c ∈ b, c ≠ STRSEP ∧ c ≠ '\n' ∧ c.toNat ≠ 0) (hl : b.length < ctx.LINE_MAX) :
    evalLoop ctx (n + 1) val (STRSEP :: (b ++ STRSEP :: t)) =
      evalLoop ctx n (strval b) t :=
  evalBody_quote ctx (evalLoop ctx n) val b t hb hl

theorem evalLoop_nil (ctx : Ctx) (n : Nat) (val : Int) :
    evalLoop ctx (n + 1) val [] = some (Result.ret val []) := rfl

/-! ## Runs that return: lemmas -/

theorem binop_applyOp (c : Char) (a b x : Int) (h : binop c a b = some x) :
    isari c = true ∧ applyOp (get_type [c]) a b = Except.ok x := by
  unfold binop at h
  by_cases h1 : c = '-'
  · subst h1; rw [if_pos rfl] at h; refine ⟨by decide, ?_⟩
    have e : get_type ['-'] = Ope.OPESUB := by decide
    rw [e]; simp only [applyOp]; rw [Option.some.inj h]
  rw [if_neg h1] at h
  by_cases h2 : c = '+'
  · subst h2; rw [if_pos rfl] at h; refine ⟨by decide, ?_⟩
    have e : get_type ['+'] = Ope.OPEADD := by decide
    rw [e]; simp only [applyOp]; rw [Option.some.inj h]
  rw [if_neg h2] at h
  by_cases h3 : c = '*'
  · subst h3; rw [if_pos rfl] at h; refine ⟨by decide, ?_⟩
    have e : get_type ['*'] = Ope.OPEMUL := by decide
    rw [e]; simp only [applyOp]; rw [Option.some.inj h]
  rw [if_neg h3] at h
  by_cases h4 : c = '/'
  · subst h4; rw [if_pos rfl] at h; refine ⟨by decide, ?_⟩
    have e : get_type ['/'] = Ope.OPEDIV := by decide
    rw [e]
    by_cases hb : b = 0 ∨ (a = INT_MIN ∧ b = -1)
    · rw [if_pos hb] at h; exact Option.noConfusion h
    · rw [if_neg hb] at h
      have hb1 : ¬ b = 0 := fun hh => hb (Or.inl hh)
      have hb2 : ¬ (a = INT_MIN ∧ b = -1) := fun hh => hb (Or.inr hh)
      simp only [applyOp, if_neg hb1, if_neg hb2]; rw [Option.some.inj h]
  rw [if_neg h4] at h
  by_cases h5 : c = '%'
  · subst h5; rw [if_pos rfl] at h; refine ⟨by decide, ?_⟩
    have e : get_type ['%'] = Ope.OPEMOD := by decide
    rw [e]
    by_cases hb : b = 0 ∨ (a = INT_MIN ∧ b = -1)
    · rw [if_pos hb] at h; exact Option.noConfusion h
    · rw [if_neg hb] at h
      have hb1 : ¬ b = 0 := fun hh => hb (Or.inl hh)
      have hb2 : ¬ (a = INT_MIN ∧ b = -1) := fun hh => hb (Or.inr hh)
      simp only [applyOp, if_neg hb1, if_neg hb2]; rw [Option.some.inj h]
  rw [if_neg h5] at h
  by_cases h6 : c = '<'
  · subst h6; rw [if_pos rfl] at h; refine ⟨by decide, ?_⟩
    have e : get_type ['<'] = Ope.OPESHL := by decide
    rw [e]
    by_cases hb : 0 ≤ b ∧ b < 32
    · rw [if_pos hb] at h
      simp only [applyOp, if_pos hb]; rw [Option.some.inj h]
    · rw [if_neg hb] at h; exact Option.noConfusion h
  rw [if_neg h6] at h
  by_cases h7 : c = '>'
  · subst h7; rw [if_pos rfl] at h; refine ⟨by decide, ?_⟩
    have e : get_type ['>'] = Ope.OPESHR := by decide
    rw [e]
    by_cases hb : 0 ≤ b ∧ b < 32
    · rw [if_pos hb] at h
      simp only [applyOp, if_pos hb]; rw [Option.some.inj h]
    · rw [if_neg hb] at h; exact Option.noConfusion h
  rw [if_neg h7] at h
  by_cases h8 : c = '|'
  · subst h8; rw [if_pos rfl] at h; refine ⟨by decide, ?_⟩
    have e : get_type ['|'] = Ope.OPELOR := by decide
    rw [e]; simp only [applyOp]; rw [Option.some.inj h]
  rw [if_neg h8] at h
  by_cases h9 : c = '&'
  · subst h9; rw [if_pos rfl] at h; refine ⟨by decide, ?_⟩
    have e : get_type ['&'] = Ope.OPELAN := by decide
    rw [e]; simp only [applyOp]; rw [Option.some.inj h]
  rw [if_neg h9] at h
  by_cases h10 : c = '^'
  · subst h10; rw [if_pos rfl] at h; refine ⟨by decide, ?_⟩
    have e : get_type ['^'] = Ope.OPEXOR := by decide
    rw [e]; simp only [applyOp]; rw [Option.some.inj h]
  rw [if_neg h10] at h
  exact Option.noConfusion h

/-- An operator at the loop head, when the rest of the input returns and the
operation has a result. -/
theorem evalLoop_ari_ret (ctx : Ctx) (n : Nat) (val : Int) (c : Char) (r : List Char)
    (v x : Int) (ds : List Err) (hc : isari c = true)
    (hr : evalLoop ctx n 0 r = some (Result.ret v ds))
    (hx : applyOp (get_type [c]) val v = Except.ok x) :
    evalLoop ctx (n + 1) val (c :: r) = some (Result.ret x ds) := by
  rw [evalLoop_ari ctx n val c r hc, hr]
  exact opCase_ret _ _ _ _ _ hx

/-- A decimal literal alone. -/
theorem returns_decimal (ctx : Ctx) (d : List Char) (hne : d ≠ [])
    (hd : ∀ c ∈ d, isdigit c = true) (hfit : (decVal d : Int) ≤ INT_MAX)
    (hl : d.length < ctx.LINE_MAX) :
    Returns ctx d (Result.ret (decVal d) []) := by
  refine ⟨2, ?_⟩
  have h := evalLoop_decimal ctx 1 0 d [] hne hd trivial hl
  rw [List.append_nil] at h
  show evalLoop ctx 2 0 d = _
  rw [h, wrap32_natCast _ hfit]
  rfl

/-- A decimal literal, an operator and a rest: the operator is applied to the
literal and the value of the whole rest. -/
theorem returns_literal_op (ctx : Ctx) (a r : List Char) (c : Char) (v x : Int)
    (ds : List Err) (hne : a ≠ []) (ha : ∀ y ∈ a, isdigit y = true)
    (hfit : (decVal a : Int) ≤ INT_MAX) (hl : a.length < ctx.LINE_MAX)
    (hc : isari c = true) (hr : Returns ctx r (Result.ret v ds))
    (hx : applyOp (get_type [c]) (decVal a) v = Except.ok x) :
    Returns ctx (a ++ c :: r) (Result.ret x ds) := by
  obtain ⟨n, hn⟩ := hr
  refine ⟨n + 2, ?_⟩
  show evalLoop ctx (n + 1 + 1) 0 (a ++ c :: r) = _
  rw [evalLoop_decimal ctx (n + 1) 0 a (c :: r) hne ha (stopsWord_ari c r hc) hl,
    wrap32_natCast _ hfit]
  exact evalLoop_ari_ret ctx n _ c r v x ds hc hn hx

/-! ## The operator rule -/

/-- C1: a decimal literal `a` followed by a binary operator and a rest `r` on
which `eval` returns `v` evaluates to `a OP v`: the operator takes the value of
the whole rest as its right operand (32-bit wrapping; `/` and `%` for
`v ≠ 0`, `<` and `>` for `0 ≤ v < 32`), with the diagnostics of `r`.  Hence
`a-b-c` is `a - (b - c)` for decimal literals. -/
theorem eval_literal_operator_rest (ctx : Ctx) (a r : List Char) (v : Int) (ds : List Err)
    (hne : a ≠ []) (ha : ∀ y ∈ a, isdigit y = true)
    (hfit : (decVal a : Int) ≤ INT_MAX) (hl : a.length < ctx.LINE_MAX)
    (hr : Returns ctx r (Result.ret v ds)) :
    Returns ctx (a ++ '-' :: r) (Result.ret (wrap32 (decVal a - v)) ds) ∧
    Returns ctx (a ++ '+' :: r) (Result.ret (wrap32 (decVal a + v)) ds) ∧
    Returns ctx (a ++ '*' :: r) (Result.ret (wrap32 (decVal a * v)) ds) ∧
    (v ≠ 0 → Returns ctx (a ++ '/' :: r) (Result.ret (Int.tdiv (decVal a) v) ds)) ∧
    (v ≠ 0 → Returns ctx (a ++ '%' :: r) (Result.ret (Int.tmod (decVal a) v) ds)) ∧
    (0 ≤ v → v < 32 →
      Returns ctx (a ++ '<' :: r) (Result.ret (wrap32 (decVal a * 2 ^ v.toNat)) ds)) ∧
    (0 ≤ v → v < 32 →
      Returns ctx (a ++ '>' :: r) (Result.ret ((decVal a : Int) / 2 ^ v.toNat) ds)) ∧
    Returns ctx (a ++ '|' :: r) (Result.ret (Int.lor (decVal a) v) ds) ∧
    Returns ctx (a ++ '&' :: r) (Result.ret (Int.land (decVal a) v) ds) ∧
    Returns ctx (a ++ '^' :: r) (Result.ret (Int.xor (decVal a) v) ds) ∧
    (∀ b c : List Char, b ≠ [] → (∀ y ∈ b, isdigit y = true) →
      (decVal b : Int) ≤ INT_MAX → b.length < ctx.LINE_MAX →
      c ≠ [] → (∀ y ∈ c, isdigit y = true) →
      (decVal c : Int) ≤ INT_MAX → c.length < ctx.LINE_MAX →
      Returns ctx (a ++ '-' :: (b ++ '-' :: c))
        (Result.ret (wrap32 (decVal a - wrap32 (decVal b - decVal c))) [])) := by
  have key : ∀ (c : Char) (x : Int), binop c (decVal a) v = some x →
      Returns ctx (a ++ c :: r) (Result.ret x ds) := by
    intro c x hx
    have h := binop_applyOp c _ _ x hx
    exact returns_literal_op ctx a r c v x ds hne ha hfit hl h.1 hr h.2
  have hmin : ¬ ((decVal a : Int) = INT_MIN ∧ v = -1) := by
    intro h
    have h1 := h.1
    unfold INT_MIN at h1
    omega
  refine ⟨key _ _ rfl, key _ _ rfl, key _ _ rfl, ?_, ?_, ?_, ?_, key _ _ rfl, key _ _ rfl,
    key _ _ rfl, ?_⟩
  · intro hv
    apply key
    have hb : ¬ (v = 0 ∨ ((decVal a : Int) = INT_MIN ∧ v = -1)) := by
      intro h; rcases h with h | h
      · exact hv h
      · exact hmin h
    simp only [binop, if_neg hb]
    rfl
  · intro hv
    apply key
    have hb : ¬ (v = 0 ∨ ((decVal a : Int) = INT_MIN ∧ v = -1)) := by
      intro h; rcases h with h | h
      · exact hv h
      · exact hmin h
    simp only [binop, if_neg hb]
    rfl
  · intro h0 h32
    apply key
    have hb : 0 ≤ v ∧ v < 32 := ⟨h0, h32⟩
    simp only [binop, if_pos hb]
    rfl
  · intro h0 h32
    apply key
    have hb : 0 ≤ v ∧ v < 32 := ⟨h0, h32⟩
    simp only [binop, if_pos hb]
    rfl
  · intro b c hbne hb hbfit hbl hcne hc hcfit hcl
    have hC := returns_decimal ctx c hcne hc hcfit hcl
    have hB := returns_literal_op ctx b c '-' (decVal c) (wrap32 (decVal b - decVal c)) []
      hbne hb hbfit hbl (by decide) hC rfl
    exact returns_literal_op ctx a (b ++ '-' :: c) '-' _ _ [] hne ha hfit hl (by decide) hB rfl

/-- Witness of C1: `10-3-2` is `10 - (3 - 2) = 9` and `2*3+4` is
`2 * (3 + 4) = 14`. -/
theorem eval_literal_operator_rest_witness :
    Returns exampleCtx ['1', '0', '-', '3', '-', '2'] (Result.ret 9 []) ∧
    Returns exampleCtx ['2', '*', '3', '+', '4'] (Result.ret 14 []) :=
  ⟨(eval_literal_operator_rest exampleCtx ['1', '0'] ['3', '-', '2'] 1 []
      (by decide) (by decide) (by decide) (by decide) ⟨5, by decide⟩).1,
   (eval_literal_operator_rest exampleCtx ['2'] ['3', '+', '4'] 7 []
      (by decide) (by decide) (by decide) (by decide) ⟨5, by decide⟩).2.2.1⟩

/-! ## Termination -/

/-- At a white-space character the loop never returns: the word scan copies
nothing, the empty word is looked up as a symbol, and the loop head is reached
again at the same input. -/
theorem evalLoop_space (ctx : Ctx) (c : Char) (t : List Char) (hc : isspace c = true) :
    ∀ (n : Nat) (val : Int), evalLoop ctx n val (c :: t) = none := by
  have hs := (isspace_iff c).1 hc
  have h0 : ¬ c.toNat = 0 := by omega
  have hp : c ≠ '(' := by
    rw [Ne, char_eq_iff_toNat, paren_toNat]; omega
  have hq : c ≠ STRSEP := by
    rw [Ne, char_eq_iff_toNat, STRSEP_toNat]; omega
  have ha : ¬ isari c = true := by
    rw [isari_iff]; omega
  have hw : scanWord (c :: t) = ([], c :: t) := by
    have hcond : (!isspace c && !isari c && decide (c.toNat ≠ 0)) = false := by
      rw [hc]; rfl
    unfold scanWord
    rw [hcond]
    rfl
  have hl : ¬ ([] : List Char).length ≥ ctx.LINE_MAX := by
    have := ctx.LINE_MAX_gt
    simp only [List.length_nil]; omega
  intro n
  induction n with
  | zero => intro val; rfl
  | succ n ih =>
    intro val
    show evalBody ctx (evalLoop ctx n) val (c :: t) = none
    rw [evalBody_cons, if_neg h0, if_neg hp, if_neg hq, if_neg ha, hw]
    dsimp only
    rw [if_neg hl]
    unfold evalSwitch
    have hg : get_type [] = Ope.OPESYM := rfl
    have hd : ¬ ([] : List Char) = ['$'] := by decide
    rw [hg]
    dsimp only
    rw [if_neg hd]
    cases ctx.get_sym (truncSym ctx []) with
    | some v => exact ih v
    | none =>
      dsimp only
      rw [ih val]
      rfl

/-- C2: `eval` does not return on an operand with white space outside a
quoted literal: on the operands ` ` and `1 + 2` the run exhausts every fuel. -/
theorem eval_space_never_returns (ctx : Ctx) (fuel : Nat) :
    eval ctx fuel [' '] = none ∧ eval ctx fuel ['1', ' ', '+', ' ', '2'] = none := by
  refine ⟨evalLoop_space ctx ' ' [] (by decide) fuel 0, ?_⟩
  cases fuel with
  | zero => rfl
  | succ n =>
    show evalLoop ctx (n + 1) 0 (['1'] ++ [' ', '+', ' ', '2']) = none
    have hst : stopsWord [' ', '+', ' ', '2'] := by decide
    rw [evalLoop_decimal ctx n 0 ['1'] [' ', '+', ' ', '2'] (by decide) (by decide)
      hst (by have := ctx.LINE_MAX_gt; simp only [List.length_singleton]; omega)]
    exact evalLoop_space ctx ' ' _ (by decide) n _

/-! ## Faults -/

/-- C3: the division and modulo cases divide by the value of the rest without
a guard: `1/0`, `5%0` and `5/` (empty rest, value 0) end in a division by
zero for every context, and so does `7/UNDEFINED` where the symbol is not
defined. -/
theorem eval_division_by_zero (ctx : Ctx) :
    Returns ctx ['1', '/', '0'] (Result.fault Fault.divByZero) ∧
    Returns ctx ['5', '%', '0'] (Result.fault Fault.divByZero) ∧
    Returns ctx ['5', '/'] (Result.fault Fault.divByZero) ∧
    Returns exampleCtx ['7', '/', 'U', 'N', 'D', 'E', 'F', 'I', 'N', 'E', 'D']
      (Result.fault Fault.divByZero) := by
  have hl1 : ([' '] : List Char).length < ctx.LINE_MAX := by
    have := ctx.LINE_MAX_gt
    simp only [List.length_singleton]; omega
  have hzero : evalLoop ctx 2 0 ['0'] = some (Result.ret 0 []) := by
    have h := evalLoop_decimal ctx 1 0 ['0'] [] (by decide) (by decide) trivial hl1
    exact h
  have hnil : evalLoop ctx 2 0 [] = some (Result.ret 0 []) := rfl
  have step : ∀ (d c : Char) (r : List Char), isdigit d = true → isari c = true →
      (get_type [c] = Ope.OPEDIV ∨ get_type [c] = Ope.OPEMOD) →
      evalLoop ctx 2 0 r = some (Result.ret 0 []) →
      Returns ctx (d :: c :: r) (Result.fault Fault.divByZero) := by
    intro d c r hd hc hop hr
    refine ⟨4, ?_⟩
    show evalLoop ctx (3 + 1) 0 ([d] ++ c :: r) = _
    rw [evalLoop_decimal ctx 3 0 [d] (c :: r) (by simp)
      (by intro y hy; rw [List.mem_singleton.1 hy]; exact hd) (stopsWord_ari c r hc) hl1]
    rw [evalLoop_ari ctx 2 _ c r hc, hr]
    apply opCase_fault
    rcases hop with h | h <;> rw [h] <;> rfl
  exact ⟨step '1' '/' ['0'] (by decide) (by decide) (Or.inl (by decide)) hzero,
    step '5' '%' ['0'] (by decide) (by decide) (Or.inr (by decide)) hzero,
    step '5' '/' [] (by decide) (by decide) (Or.inl (by decide)) hnil, ⟨4, by decide⟩⟩

/-! ## Groups, literals and symbols: lemmas -/

/-- A closed group followed by a rest that returns from the value of the
group. -/
theorem evalLoop_paren_ret (ctx : Ctx) (n m : Nat) (val : Int) (b t : List Char)
    (vb x : Int) (db es : List Err)
    (hb : ∀ c ∈ b, c ≠ ')' ∧ c.toNat ≠ 0) (hl : b.length < ctx.LINE_MAX)
    (hB : evalLoop ctx n 0 b = some (Result.ret vb db))
    (hT : evalLoop ctx m vb t = some (Result.ret x es)) :
    evalLoop ctx (max n m + 1) val ('(' :: (b ++ ')' :: t)) =
      some (Result.ret x (db ++ es)) := by
  rw [evalLoop_paren ctx (max n m) val b t hb hl,
    evalLoop_mono ctx n (max n m) (le_max_left _ _) 0 b _ hB]
  exact andThen_ret vb db _ x es (evalLoop_mono ctx m (max n m) (le_max_right _ _) vb t _ hT)

/-- A word that starts with a digit and ends with a radix suffix. -/
theorem evalLoop_digit_led (ctx : Ctx) (n : Nat) (val : Int) (c l : Char) (w : List Char)
    (hc : isdigit c = true) (hw : ∀ x ∈ w, wordChar x = true) (hlw : wordChar l = true)
    (hl : w.length + 2 < ctx.LINE_MAX) :
    evalLoop ctx (n + 1) val ((c :: w) ++ [l]) =
      evalSwitch ctx (evalLoop ctx n) val ((c :: w) ++ [l]) [] := by
  have hall : ∀ x ∈ c :: (w ++ [l]), wordChar x = true := by
    intro x hx
    rcases List.mem_cons.1 hx with h | h
    · rw [h]; exact wordChar_of_isdigit c hc
    · rcases List.mem_append.1 h with h2 | h2
      · exact hw x h2
      · rw [List.mem_singleton.1 h2]; exact hlw
  have hlen : (c :: (w ++ [l])).length < ctx.LINE_MAX := by
    simp only [List.length_cons, List.length_append, List.length_nil]; omega
  have h := evalBody_word ctx (evalLoop ctx n) val c (w ++ [l]) [] hall
    (digit_ne_paren c hc) (digit_ne_STRSEP c hc) trivial hlen
  rw [List.append_nil] at h
  exact h

theorem hexChar_iff (c : Char) :
    hexChar c = true ↔ ((48 ≤ c.toNat ∧ c.toNat ≤ 57) ∨ (65 ≤ c.toNat ∧ c.toNat ≤ 70)) := by
  simp [hexChar, isdigit]

theorem octChar_iff (c : Char) : octChar c = true ↔ (48 ≤ c.toNat ∧ c.toNat ≤ 55) := by
  simp [octChar]

theorem binChar_iff (c : Char) : binChar c = true ↔ (48 ≤ c.toNat ∧ c.toNat ≤ 49) := by
  have e0 : '0'.toNat = 48 := by decide
  have e1 : '1'.toNat = 49 := by decide
  simp only [binChar, Bool.or_eq_true, beq_iff_eq, char_eq_iff_toNat, e0, e1]
  omega

theorem wordChar_of_hexChar (c : Char) (h : hexChar c = true) : wordChar c = true := by
  rw [wordChar_iff, isspace_iff, isari_iff]
  rw [hexChar_iff] at h
  omega

/-- A radix-suffixed literal alone: the switch case selected by the suffix
assigns the converted word. -/
theorem returns_radix (ctx : Ctx) (c l : Char) (w : List Char) (x : Int)
    (hc : isdigit c = true) (hw : ∀ y ∈ w, hexChar y = true)
    (hl : w.length + 2 < ctx.LINE_MAX) (hlw : wordChar l = true)
    (hsw : ∀ rec, evalSwitch ctx rec 0 ((c :: w) ++ [l]) [] = rec x []) :
    Returns ctx ((c :: w) ++ [l]) (Result.ret x []) := by
  refine ⟨2, ?_⟩
  show evalLoop ctx (1 + 1) 0 ((c :: w) ++ [l]) = _
  rw [evalLoop_digit_led ctx 1 0 c l w hc (fun y hy => wordChar_of_hexChar y (hw y hy)) hlw hl,
    hsw]
  rfl

theorem complement_eq (v : Int) : ~~~v = -v - 1 := by
  cases v with
  | ofNat n => show Int.negSucc n = -(n : Int) - 1; rw [Int.negSucc_eq]; omega
  | negSucc n => show (n : Int) = -(Int.negSucc n) - 1; rw [Int.negSucc_eq]; omega

theorem truncSym_eq (ctx : Ctx) (w : List Char) : truncSym ctx w = w.take ctx.SYMSIZE := by
  unfold truncSym
  by_cases h : w.length > ctx.SYMSIZE
  · rw [if_pos h]
  · rw [if_neg h, List.take_of_length_le (by omega)]

/-- A symbol token at the loop head: the first `SYMSIZE` characters are looked
up; a value found is assigned, a failed lookup is reported and leaves the
accumulator. -/
theorem evalLoop_symbol (ctx : Ctx) (n : Nat) (val : Int) (w t : List Char)
    (hw : symbolToken w) (ht : stopsWord t) (hl : w.length < ctx.LINE_MAX) :
    evalLoop ctx (n + 1) val (w ++ t) =
      match ctx.get_sym (w.take ctx.SYMSIZE) with
      | some v => evalLoop ctx n v t
      | none => asmerr Err.E_UNDSYM (evalLoop ctx n val t) := by
  obtain ⟨hall, hdollar, c, w1, rfl, hd, hp, hq⟩ := hw
  have hc := (wordChar_iff c).1 (hall c (List.mem_cons_self _ _))
  have ha : isari c = false := by
    cases h : isari c with
    | false => rfl
    | true => exact absurd h hc.2.1
  show evalBody ctx (evalLoop ctx n) val ((c :: w1) ++ t) = _
  rw [evalBody_word ctx _ val c w1 t hall hp hq ht hl]
  unfold evalSwitch
  rw [get_type_symbol c w1 hd ha]
  dsimp only
  rw [if_neg hdollar, truncSym_eq]

/-- A symbol token alone. -/
theorem returns_symbol (ctx : Ctx) (w : List Char) (hw : symbolToken w)
    (hl : w.length < ctx.LINE_MAX) :
    Returns ctx w (match ctx.get_sym (w.take ctx.SYMSIZE) with
      | some v => Result.ret v []
      | none => Result.ret 0 [Err.E_UNDSYM]) := by
  refine ⟨2, ?_⟩
  have h := evalLoop_symbol ctx 1 0 w [] hw trivial hl
  rw [List.append_nil] at h
  show evalLoop ctx (1 + 1) 0 w = _
  rw [h]
  cases ctx.get_sym (w.take ctx.SYMSIZE) with
  | some v => rfl
  | none => rfl

/-! ## Groups -/

/-- C4: a parenthesised group `(b)` whose body has no `)` (and, being a C
string, no NUL) and fits the token buffer, followed by a binary operator and a
rest `r`: the result is `eval(b) OP eval(r)` and the diagnostics are those of
`b` followed by those of `r`; a group standing alone evaluates to `eval(b)`
with the diagnostics of `b`. -/
theorem eval_group_then_operator (ctx : Ctx) (b r : List Char) (c : Char)
    (vb vr x : Int) (db dr : List Err)
    (hb : ∀ y ∈ b, y ≠ ')' ∧ y.toNat ≠ 0) (hl : b.length < ctx.LINE_MAX)
    (hB : Returns ctx b (Result.ret vb db)) (hR : Returns ctx r (Result.ret vr dr))
    (hx : binop c vb vr = some x) :
    Returns ctx ('(' :: (b ++ ')' :: c :: r)) (Result.ret x (db ++ dr)) ∧
    Returns ctx ('(' :: (b ++ [')'])) (Result.ret vb db) := by
  obtain ⟨n, hn⟩ := hB
  obtain ⟨m, hm⟩ := hR
  have hop := binop_applyOp c vb vr x hx
  constructor
  · have hT := evalLoop_ari_ret ctx m vb c r vr x dr hop.1 hm hop.2
    exact ⟨max n (m + 1) + 1, evalLoop_paren_ret ctx n (m + 1) 0 b (c :: r) vb x db dr hb hl hn hT⟩
  · have hT : evalLoop ctx 1 vb [] = some (Result.ret vb []) := rfl
    have h := evalLoop_paren_ret ctx n 1 0 b [] vb vb db [] hb hl hn hT
    rw [List.append_nil] at h
    exact ⟨max n 1 + 1, h⟩

/-- Witness of C4: `(2+3)*4` is 20 and `(2+3)` is 5. -/
theorem eval_group_then_operator_witness :
    Returns exampleCtx ['(', '2', '+', '3', ')', '*', '4'] (Result.ret 20 []) ∧
    Returns exampleCtx ['(', '2', '+', '3', ')'] (Result.ret 5 []) :=
  eval_group_then_operator exampleCtx ['2', '+', '3'] ['4'] '*' 5 4 20 [] []
    (by decide) (by decide) ⟨5, by decide⟩ ⟨2, by decide⟩ (by decide)

/-! ## Literals -/

/-- C5: a non-empty string of decimal digits whose value fits an `int` (and
that fits the token buffer) evaluates to its decimal value with no diagnostic,
for every symbol table and location counter. -/
theorem eval_decimal_literal (ctx : Ctx) (d : List Char) (hne : d ≠ [])
    (hd : ∀ c ∈ d, isdigit c = true) (hfit : (decVal d : Int) ≤ INT_MAX)
    (hl : d.length < ctx.LINE_MAX) :
    Returns ctx d (Result.ret (decVal d) []) :=
  returns_decimal ctx d hne hd hfit hl

/-- Witness of C5: `0042` is 42. -/
theorem eval_decimal_literal_witness :
    Returns exampleCtx ['0', '0', '4', '2'] (Result.ret 42 []) :=
  eval_decimal_literal exampleCtx ['0', '0', '4', '2'] (by decide) (by decide) (by decide)
    (by decide)

/-- C6: a non-empty digit string `w` whose value fits an `int`, followed by a
radix suffix (the whole fitting the token buffer): `wH` is the base-16 value of
`w` when `w` is over `0-9A-F` and starts with a decimal digit, `wO` the base-8
value when `w` is over `0-7`, `wB` the base-2 value when `w` is over `0-1`;
no diagnostic. -/
theorem eval_radix_literal (ctx : Ctx) (w : List Char) (hne : w ≠ [])
    (hl : w.length + 1 < ctx.LINE_MAX) :
    ((∀ y ∈ w, hexChar y = true) → (∃ c t, w = c :: t ∧ isdigit c = true) →
      (hexVal w : Int) ≤ INT_MAX → Returns ctx (w ++ ['H']) (Result.ret (hexVal w) [])) ∧
    ((∀ y ∈ w, octChar y = true) →
      (octVal w : Int) ≤ INT_MAX → Returns ctx (w ++ ['O']) (Result.ret (octVal w) [])) ∧
    ((∀ y ∈ w, binChar y = true) →
      (binVal w : Int) ≤ INT_MAX → Returns ctx (w ++ ['B']) (Result.ret (binVal w) [])) := by
  cases w with
  | nil => exact absurd rfl hne
  | cons c t =>
    have hl2 : t.length + 2 < ctx.LINE_MAX := by
      simp only [List.length_cons] at hl; omega
    refine ⟨?_, ?_, ?_⟩
    · intro hw hhead hfit
      obtain ⟨c2, t2, he, hc2⟩ := hhead
      have hc : isdigit c = true := by
        rw [(List.cons.inj he).1]; exact hc2
      have hg : get_type ((c :: t) ++ ['H']) = Ope.OPEHEX := by
        rw [get_type_digit_last c 'H' t hc]; rfl
      have hv : axtoi ((c :: t) ++ ['H']) = (hexVal (c :: t) : Nat) := by
        have h := axtoiFrom_eq (c :: t) ['H'] (fun y hy => (hexChar_iff y).1 (hw y hy))
          (by intro y hy; rw [Option.some.inj hy.symm]; decide) 0 hfit
        rw [Nat.cast_zero] at h
        exact h
      apply returns_radix ctx c 'H' t _ hc (fun y hy => hw y (List.mem_cons_of_mem _ hy)) hl2
        (by decide)
      intro rec
      unfold evalSwitch
      rw [hg, hv]
    · intro hw hfit
      have hc := (octChar_iff c).1 (hw c (List.mem_cons_self _ _))
      have hcd : isdigit c = true := by rw [isdigit_iff]; omega
      have hg : get_type ((c :: t) ++ ['O']) = Ope.OPEOCT := by
        rw [get_type_digit_last c 'O' t hcd]; rfl
      have hv : aotoi ((c :: t) ++ ['O']) = (octVal (c :: t) : Nat) := by
        have h := aotoiFrom_eq (c :: t) ['O'] (fun y hy => (octChar_iff y).1 (hw y hy))
          (by intro y hy; rw [Option.some.inj hy.symm]; decide) 0 hfit
        rw [Nat.cast_zero] at h
        exact h
      apply returns_radix ctx c 'O' t _ hcd
        (fun y hy => by
          have := (octChar_iff y).1 (hw y (List.mem_cons_of_mem _ hy))
          rw [hexChar_iff]; omega) hl2 (by decide)
      intro rec
      unfold evalSwitch
      rw [hg, hv]
    · intro hw hfit
      have hc := (binChar_iff c).1 (hw c (List.mem_cons_self _ _))
      have hcd : isdigit c = true := by rw [isdigit_iff]; omega
      have hg : get_type ((c :: t) ++ ['B']) = Ope.OPEBIN := by
        rw [get_type_digit_last c 'B' t hcd]; rfl
      have hv : abtoi ((c :: t) ++ ['B']) = (binVal (c :: t) : Nat) := by
        have h := abtoiFrom_eq (c :: t) ['B'] (fun y hy => (binChar_iff y).1 (hw y hy))
          (by intro y hy; rw [Option.some.inj hy.symm]; decide) 0 hfit
        rw [Nat.cast_zero] at h
        exact h
      apply returns_radix ctx c 'B' t _ hcd
        (fun y hy => by
          have := (binChar_iff y).1 (hw y (List.mem_cons_of_mem _ hy))
          rw [hexChar_iff]; omega) hl2 (by decide)
      intro rec
      unfold evalSwitch
      rw [hg, hv]

/-- Witness of C6: `1234H` is 4660 (0x1234), `17O` is 15 and `101B` is 5. -/
theorem eval_radix_literal_witness :
    Returns exampleCtx ['1', '2', '3', '4', 'H'] (Result.ret 4660 []) ∧
    Returns exampleCtx ['1', '7', 'O'] (Result.ret 15 []) ∧
    Returns exampleCtx ['1', '0', '1', 'B'] (Result.ret 5 []) :=
  ⟨(eval_radix_literal exampleCtx ['1', '2', '3', '4'] (by decide) (by decide)).1
      (by decide) ⟨'1', ['2', '3', '4'], rfl, by decide⟩ (by decide),
   (eval_radix_literal exampleCtx ['1', '7'] (by decide) (by decide)).2.1
      (by decide) (by decide),
   (eval_radix_literal exampleCtx ['1', '0', '1'] (by decide) (by decide)).2.2
      (by decide) (by decide)⟩

/-! ## Complement -/

/-- C7: for a rest `r` on which `eval` returns `v`, `~r` evaluates to the
bitwise complement `-v - 1` with the diagnostics of `r`; the accumulator built
before the `~` is discarded, so `a~r` evaluates the same for every decimal
literal `a`. -/
theorem eval_complement (ctx : Ctx) (r : List Char) (v : Int) (ds : List Err)
    (hr : Returns ctx r (Result.ret v ds)) :
    Returns ctx ('~' :: r) (Result.ret (-v - 1) ds) ∧
    (∀ a : List Char, a ≠ [] → (∀ y ∈ a, isdigit y = true) → a.length < ctx.LINE_MAX →
      Returns ctx (a ++ '~' :: r) (Result.ret (-v - 1) ds)) := by
  obtain ⟨n, hn⟩ := hr
  have hstep : ∀ val : Int, evalLoop ctx (n + 1) val ('~' :: r) =
      some (Result.ret (-v - 1) ds) := by
    intro val
    have h := evalLoop_ari_ret ctx n val '~' r v (~~~v) ds (by decide) hn rfl
    rw [complement_eq] at h
    exact h
  refine ⟨⟨n + 1, hstep 0⟩, ?_⟩
  intro a hne ha hl
  refine ⟨n + 2, ?_⟩
  show evalLoop ctx (n + 1 + 1) 0 (a ++ '~' :: r) = _
  rw [evalLoop_decimal ctx (n + 1) 0 a ('~' :: r) hne ha (stopsWord_ari '~' r (by decide)) hl]
  exact hstep _

/-- Witness of C7: `~5` is -6, and so is `3~5`. -/
theorem eval_complement_witness :
    Returns exampleCtx ['~', '5'] (Result.ret (-6) []) ∧
    Returns exampleCtx ['3', '~', '5'] (Result.ret (-6) []) :=
  ⟨(eval_complement exampleCtx ['5'] 5 [] ⟨2, by decide⟩).1,
   (eval_complement exampleCtx ['5'] 5 [] ⟨2, by decide⟩).2 ['3'] (by decide) (by decide)
     (by decide)⟩

/-! ## Quoted literals -/

/-- C8: a quoted literal whose buffer `b` is made of ASCII characters other
than the delimiter, the newline (and NUL), and fits the token buffer,
evaluates to the big-endian packing of the character codes of `b` reduced to
32 bits, with no diagnostic; the packing is exact for at most three
characters, and the empty literal is 0. -/
theorem eval_quoted_literal (ctx : Ctx) (b : List Char)
    (hb : ∀ c ∈ b, c.toNat < 128 ∧ c ≠ STRSEP ∧ c ≠ '\n' ∧ c.toNat ≠ 0)
    (hl : b.length < ctx.LINE_MAX) :
    Returns ctx (STRSEP :: (b ++ [STRSEP])) (Result.ret (wrap32 (packVal b : Nat)) []) ∧
    (b.length ≤ 3 → Returns ctx (STRSEP :: (b ++ [STRSEP])) (Result.ret (packVal b : Nat) [])) ∧
    (b = [] → Returns ctx [STRSEP, STRSEP] (Result.ret 0 [])) := by
  have hmain : Returns ctx (STRSEP :: (b ++ [STRSEP]))
      (Result.ret (wrap32 (packVal b : Nat)) []) := by
    refine ⟨2, ?_⟩
    show evalLoop ctx (1 + 1) 0 (STRSEP :: (b ++ [STRSEP])) = _
    rw [evalLoop_quote ctx 1 0 b [] (fun c hc => (hb c hc).2) hl,
      strval_eq b (fun c hc => (hb c hc).2.2.2)]
    rfl
  refine ⟨hmain, ?_, ?_⟩
  · intro h3
    have hlt := packFrom_lt b (fun c hc => (hb c hc).1) 0
    have hpow : 256 ^ b.length ≤ 256 ^ 3 := Nat.pow_le_pow_right (by decide) h3
    have hle : (packVal b : Int) ≤ INT_MAX := by
      have h1 : packVal b < 256 ^ 3 := by
        have h2 : packFrom 0 b < (0 + 1) * 256 ^ b.length := hlt
        rw [Nat.zero_add, Nat.one_mul] at h2
        exact lt_of_lt_of_le h2 hpow
      have h4 : (256 : Nat) ^ 3 = 16777216 := by decide
      rw [h4] at h1
      unfold INT_MAX
      omega
    rw [wrap32_natCast _ hle] at hmain
    exact hmain
  · intro he
    rw [he] at hmain
    exact hmain

/-- Witness of C8: the literal `'AB'` is `(65 << 8) + 66`, and the contents
`1+(2` are packed, not evaluated. -/
theorem eval_quoted_literal_witness :
    Returns exampleCtx [STRSEP, 'A', 'B', STRSEP] (Result.ret (65 * 256 + 66) []) ∧
    Returns exampleCtx [STRSEP, '1', '+', ' ', STRSEP]
      (Result.ret ((49 * 256 + 43) * 256 + 32) []) :=
  ⟨(eval_quoted_literal exampleCtx ['A', 'B'] (by decide) (by decide)).2.1 (by decide),
   (eval_quoted_literal exampleCtx ['1', '+', ' '] (by decide) (by decide)).2.1 (by decide)⟩

/-! ## Symbols -/

/-- C9: a symbol token `w` (fitting the token buffer) is resolved by looking
up exactly its first `SYMSIZE` characters: when that name is bound to `v` the
result is `v` with no diagnostic, and otherwise 0 with `E_UNDSYM`.  Two symbol
tokens that agree on their first `SYMSIZE` characters have the same result
and diagnostics; an over-long name is truncated, not rejected. -/
theorem eval_symbol_truncated (ctx : Ctx) (w : List Char) (hw : symbolToken w)
    (hl : w.length < ctx.LINE_MAX) :
    Returns ctx w (match ctx.get_sym (w.take ctx.SYMSIZE) with
      | some v => Result.ret v []
      | none => Result.ret 0 [Err.E_UNDSYM]) ∧
    (∀ v : Int, ctx.get_sym (w.take ctx.SYMSIZE) = some v → Returns ctx w (Result.ret v [])) ∧
    (∀ w2 : List Char, symbolToken w2 → w2.length < ctx.LINE_MAX →
      w2.take ctx.SYMSIZE = w.take ctx.SYMSIZE →
      ∀ r : Result, Returns ctx w2 r ↔ Returns ctx w r) := by
  have h1 := returns_symbol ctx w hw hl
  refine ⟨h1, ?_, ?_⟩
  · intro v hv
    rw [hv] at h1
    exact h1
  · intro w2 hw2 hl2 htake r
    have h2 := returns_symbol ctx w2 hw2 hl2
    rw [htake] at h2
    constructor
    · intro hr
      rw [Returns_unique ctx w2 _ _ hr h2]
      exact h1
    · intro hr
      rw [Returns_unique ctx w _ _ hr h1]
      exact h2

/-- Witness of C9: with symbols of 8 characters, `LABEL` is 4660, and
`UNDEFINED2` has the result of `UNDEFINED1`. -/
theorem eval_symbol_truncated_witness :
    Returns exampleCtx ['L', 'A', 'B', 'E', 'L'] (Result.ret 4660 []) ∧
    Returns exampleCtx ['U', 'N', 'D', 'E', 'F', 'I', 'N', 'E', 'D', '2']
      (Result.ret 0 [Err.E_UNDSYM]) :=
  ⟨(eval_symbol_truncated exampleCtx ['L', 'A', 'B', 'E', 'L']
      ⟨by decide, by decide, 'L', ['A', 'B', 'E', 'L'], rfl, by decide, by decide, by decide⟩
      (by decide)).2.1 4660 (by decide),
   ((eval_symbol_truncated exampleCtx ['U', 'N', 'D', 'E', 'F', 'I', 'N', 'E', 'D', '1']
      ⟨by decide, by decide, 'U', ['N', 'D', 'E', 'F', 'I', 'N', 'E', 'D', '1'], rfl,
        by decide, by decide, by decide⟩
      (by decide)).2.2 ['U', 'N', 'D', 'E', 'F', 'I', 'N', 'E', 'D', '2']
      ⟨by decide, by decide, 'U', ['N', 'D', 'E', 'F', 'I', 'N', 'E', 'D', '2'], rfl,
        by decide, by decide, by decide⟩
      (by decide) (by decide) (Result.ret 0 [Err.E_UNDSYM])).2 ⟨2, by decide⟩⟩

/-- C10: a symbol token `w` (fitting the token buffer) whose truncated name is
not in the symbol table reports exactly `E_UNDSYM` and returns 0; the failed
lookup leaves the accumulator, so after a group `(b)` the result is the value
of `b`, with the diagnostics of `b` followed by `E_UNDSYM`. -/
theorem eval_undefined_symbol (ctx : Ctx) (w : List Char) (hw : symbolToken w)
    (hl : w.length < ctx.LINE_MAX) (hu : ctx.get_sym (w.take ctx.SYMSIZE) = none) :
    Returns ctx w (Result.ret 0 [Err.E_UNDSYM]) ∧
    (∀ (b : List Char) (vb : Int) (db : List Err),
      (∀ y ∈ b, y ≠ ')' ∧ y.toNat ≠ 0) → b.length < ctx.LINE_MAX →
      Returns ctx b (Result.ret vb db) →
      Returns ctx ('(' :: (b ++ ')' :: w)) (Result.ret vb (db ++ [Err.E_UNDSYM]))) := by
  constructor
  · have h1 := returns_symbol ctx w hw hl
    rw [hu] at h1
    exact h1
  · intro b vb db hb hbl hB
    obtain ⟨n, hn⟩ := hB
    have hT : evalLoop ctx 2 vb w = some (Result.ret vb [Err.E_UNDSYM]) := by
      have h := evalLoop_symbol ctx 1 vb w [] hw trivial hl
      rw [List.append_nil, hu] at h
      exact h
    exact ⟨max n 2 + 1, evalLoop_paren_ret ctx n 2 0 b w vb vb db [Err.E_UNDSYM] hb hbl hn hT⟩

/-- Witness of C10: `UNKNOWN` reports `E_UNDSYM` and returns 0, and
`(2+3)UNKNOWN` returns 5. -/
theorem eval_undefined_symbol_witness :
    Returns exampleCtx ['U', 'N', 'K', 'N', 'O', 'W', 'N'] (Result.ret 0 [Err.E_UNDSYM]) ∧
    Returns exampleCtx ['(', '2', '+', '3', ')', 'U', 'N', 'K', 'N', 'O', 'W', 'N']
      (Result.ret 5 [Err.E_UNDSYM]) :=
  ⟨(eval_undefined_symbol exampleCtx ['U', 'N', 'K', 'N', 'O', 'W', 'N']
      ⟨by decide, by decide, 'U', ['N', 'K', 'N', 'O', 'W', 'N'], rfl, by decide, by decide,
        by decide⟩ (by decide) (by decide)).1,
   (eval_undefined_symbol exampleCtx ['U', 'N', 'K', 'N', 'O', 'W', 'N']
      ⟨by decide, by decide, 'U', ['N', 'K', 'N', 'O', 'W', 'N'], rfl, by decide, by decide,
        by decide⟩ (by decide) (by decide)).2 ['2', '+', '3'] 5 [] (by decide) (by decide)
      ⟨5, by decide⟩⟩

/-! ## Unterminated groups and quotes, the location marker: lemmas -/

theorem scanParen_unclosed (b : List Char) (hb : ∀ c ∈ b, c ≠ ')') :
    (scanParen b).2 = none ∧ (scanParen b).1.length ≤ b.length := by
  induction b with
  | nil => exact ⟨rfl, le_refl _⟩
  | cons c b ih =>
    have hc := hb c (List.mem_cons_self _ _)
    have ih2 := ih (fun x hx => hb x (List.mem_cons_of_mem _ hx))
    unfold scanParen
    rw [if_neg hc]
    by_cases h0 : c.toNat = 0
    · rw [if_pos h0]
      exact ⟨rfl, Nat.zero_le _⟩
    · rw [if_neg h0]
      exact ⟨ih2.1, Nat.succ_le_succ ih2.2⟩

/-- An unterminated group at the loop head: `E_MISPAR` is reported and the run
ends with the accumulator. -/
theorem evalLoop_paren_unclosed (ctx : Ctx) (n : Nat) (val : Int) (b : List Char)
    (hb : ∀ c ∈ b, c ≠ ')') (hl : b.length ≤ ctx.LINE_MAX) :
    evalLoop ctx (n + 1) val ('(' :: b) = some (Result.ret val [Err.E_MISPAR]) := by
  have h0 : ¬ '('.toNat = 0 := by decide
  have hs := scanParen_unclosed b hb
  show evalBody ctx (evalLoop ctx n) val ('(' :: b) = _
  rw [evalBody_cons, if_neg h0, if_pos rfl]
  generalize scanParen b = sp at hs
  obtain ⟨word, o⟩ := sp
  have ho : o = none := hs.1
  have hw : word.length ≤ b.length := hs.2
  subst ho
  have hl2 : ¬ word.length > ctx.LINE_MAX := by omega
  dsimp only
  rw [if_neg hl2]
  rfl

theorem scanQuote_unclosed (b : List Char)
    (hb : ∀ c ∈ b, c ≠ STRSEP ∧ c ≠ '\n' ∧ c.toNat ≠ 0) :
    scanQuote b = (b, [], false) := by
  induction b with
  | nil => rfl
  | cons c b ih =>
    have hc := hb c (List.mem_cons_self _ _)
    have ih2 := ih (fun x hx => hb x (List.mem_cons_of_mem _ hx))
    have hor : ¬ (c = '\n' ∨ c.toNat = 0) := by
      intro h; rcases h with h | h
      · exact hc.2.1 h
      · exact hc.2.2 h
    unfold scanQuote
    rw [if_neg hc.1, if_neg hor, ih2]

/-- A quoted literal that runs to the end of the input: `E_MISHYP` is reported
and the buffer is packed all the same. -/
theorem evalLoop_quote_unclosed (ctx : Ctx) (n : Nat) (val : Int) (b : List Char)
    (hb : ∀ c ∈ b, c ≠ STRSEP ∧ c ≠ '\n' ∧ c.toNat ≠ 0) (hl : b.length < ctx.LINE_MAX) :
    evalLoop ctx (n + 1 + 1) val (STRSEP :: b) =
      some (Result.ret (strval b) [Err.E_MISHYP]) := by
  have h0 : ¬ STRSEP.toNat = 0 := by decide
  have hp : ¬ STRSEP = '(' := by decide
  have hl2 : ¬ b.length ≥ ctx.LINE_MAX := by omega
  show evalBody ctx (evalLoop ctx (n + 1)) val (STRSEP :: b) = _
  rw [evalBody_cons, if_neg h0, if_neg hp, if_pos rfl, scanQuote_unclosed b hb]
  dsimp only
  rw [if_neg hl2]
  rfl

/-- The location marker at the loop head assigns the location counter, without
a lookup. -/
theorem evalLoop_dollar (ctx : Ctx) (n : Nat) (val : Int) (t : List Char)
    (ht : stopsWord t) :
    evalLoop ctx (n + 1) val ('$' :: t) = evalLoop ctx n ctx.pc t := by
  have hl : (['$'] : List Char).length < ctx.LINE_MAX := by
    have := ctx.LINE_MAX_gt
    simp only [List.length_singleton]; omega
  have h := evalBody_word ctx (evalLoop ctx n) val '$' [] t (by decide) (by decide)
    (by decide) ht hl
  show evalBody ctx (evalLoop ctx n) val (['$'] ++ t) = _
  rw [h]
  unfold evalSwitch
  have hg : get_type ['$'] = Ope.OPESYM := by decide
  rw [hg]
  dsimp only
  rw [if_pos rfl]

/-! ## Unterminated groups and quotes -/

/-- C11: for a string `b` without `)` (that fits the token buffer), `(b`
reports exactly `E_MISPAR`, stops and returns the accumulator as it was before
the group: 0 when the group comes first, the value of a preceding group `(g)`
otherwise.  The content `b` is not evaluated: the diagnostics are `E_MISPAR`
alone whatever `b` is. -/
theorem eval_unbalanced_parenthesis (ctx : Ctx) (b : List Char)
    (hb : ∀ c ∈ b, c ≠ ')') (hl : b.length ≤ ctx.LINE_MAX) :
    Returns ctx ('(' :: b) (Result.ret 0 [Err.E_MISPAR]) ∧
    (∀ val : Int, LoopReturns ctx val ('(' :: b) (Result.ret val [Err.E_MISPAR])) ∧
    (∀ (g : List Char) (v : Int) (ds : List Err),
      (∀ y ∈ g, y ≠ ')' ∧ y.toNat ≠ 0) → g.length < ctx.LINE_MAX →
      Returns ctx g (Result.ret v ds) →
      Returns ctx ('(' :: (g ++ ')' :: '(' :: b)) (Result.ret v (ds ++ [Err.E_MISPAR]))) := by
  refine ⟨⟨1, evalLoop_paren_unclosed ctx 0 0 b hb hl⟩,
    fun val => ⟨1, evalLoop_paren_unclosed ctx 0 val b hb hl⟩, ?_⟩
  intro g v ds hg hgl hG
  obtain ⟨n, hn⟩ := hG
  exact ⟨max n 1 + 1, evalLoop_paren_ret ctx n 1 0 g ('(' :: b) v v ds [Err.E_MISPAR] hg hgl hn
    (evalLoop_paren_unclosed ctx 0 v b hb hl)⟩

/-- Witness of C11: `(1+2` reports `E_MISPAR` and returns 0, `(UNKNOWN` does
not report the undefined symbol, and `(3)(1+2` returns 3. -/
theorem eval_unbalanced_parenthesis_witness :
    Returns exampleCtx ['(', '1', '+', '2'] (Result.ret 0 [Err.E_MISPAR]) ∧
    Returns exampleCtx ['(', 'U', 'N', 'K', 'N', 'O', 'W', 'N'] (Result.ret 0 [Err.E_MISPAR]) ∧
    Returns exampleCtx ['(', '3', ')', '(', '1', '+', '2'] (Result.ret 3 [Err.E_MISPAR]) :=
  ⟨(eval_unbalanced_parenthesis exampleCtx ['1', '+', '2'] (by decide) (by decide)).1,
   (eval_unbalanced_parenthesis exampleCtx ['U', 'N', 'K', 'N', 'O', 'W', 'N'] (by decide)
     (by decide)).1,
   (eval_unbalanced_parenthesis exampleCtx ['1', '+', '2'] (by decide) (by decide)).2.2
     ['3'] 3 [] (by decide) (by decide) ⟨2, by decide⟩⟩

/-- C12: a quoted literal that is not closed before the end of the input, with
a buffer `b` of ASCII characters other than the delimiter and the newline
(and NUL) that fits the token buffer, reports exactly `E_MISHYP` and returns
the packed value of `b`: the value of the closed literal. -/
theorem eval_unterminated_quote (ctx : Ctx) (b : List Char)
    (hb : ∀ c ∈ b, c.toNat < 128 ∧ c ≠ STRSEP ∧ c ≠ '\n' ∧ c.toNat ≠ 0)
    (hl : b.length < ctx.LINE_MAX) :
    Returns ctx (STRSEP :: b) (Result.ret (wrap32 (packVal b : Nat)) [Err.E_MISHYP]) ∧
    (∃ v : Int, Returns ctx (STRSEP :: b) (Result.ret v [Err.E_MISHYP]) ∧
      Returns ctx (STRSEP :: (b ++ [STRSEP])) (Result.ret v [])) := by
  have hb2 : ∀ c ∈ b, c ≠ STRSEP ∧ c ≠ '\n' ∧ c.toNat ≠ 0 := fun c hc => (hb c hc).2
  have hopen : Returns ctx (STRSEP :: b) (Result.ret (strval b) [Err.E_MISHYP]) :=
    ⟨2, evalLoop_quote_unclosed ctx 0 0 b hb2 hl⟩
  have hclosed : Returns ctx (STRSEP :: (b ++ [STRSEP])) (Result.ret (strval b) []) := by
    refine ⟨2, ?_⟩
    show evalLoop ctx (1 + 1) 0 (STRSEP :: (b ++ [STRSEP])) = _
    rw [evalLoop_quote ctx 1 0 b [] hb2 hl]
    rfl
  refine ⟨?_, strval b, hopen, hclosed⟩
  rw [strval_eq b (fun c hc => (hb c hc).2.2.2)] at hopen
  exact hopen

/-- Witness of C12: the unterminated literal `'AB` is `(65 << 8) + 66` with
`E_MISHYP`. -/
theorem eval_unterminated_quote_witness :
    Returns exampleCtx [STRSEP, 'A', 'B'] (Result.ret 16706 [Err.E_MISHYP]) :=
  (eval_unterminated_quote exampleCtx ['A', 'B'] (by decide) (by decide)).1

/-! ## The location marker -/

/-- C13: `$` evaluates to the location counter with no diagnostic, whatever the
symbol table holds (the table is not consulted, also when it binds `$`), and
`$+d` is the counter plus the decimal literal `d` (32-bit wrapping). -/
theorem eval_location_marker (ctx : Ctx) (d : List Char) (hne : d ≠ [])
    (hd : ∀ c ∈ d, isdigit c = true) (hfit : (decVal d : Int) ≤ INT_MAX)
    (hl : d.length < ctx.LINE_MAX) :
    Returns ctx ['$'] (Result.ret ctx.pc []) ∧
    Returns ctx ('$' :: '+' :: d) (Result.ret (wrap32 (ctx.pc + decVal d)) []) := by
  constructor
  · exact ⟨2, evalLoop_dollar ctx 1 0 [] trivial⟩
  · obtain ⟨n, hn⟩ := returns_decimal ctx d hne hd hfit hl
    refine ⟨n + 2, ?_⟩
    show evalLoop ctx (n + 1 + 1) 0 ('$' :: '+' :: d) = _
    rw [evalLoop_dollar ctx (n + 1) 0 ('+' :: d) (stopsWord_ari '+' d (by decide))]
    exact evalLoop_ari_ret ctx n ctx.pc '+' d _ _ [] (by decide) hn rfl

/-- Witness of C13: in a context with location counter 256 whose symbol table
binds `$` to 99, `$` is 256 and `$+5` is 261. -/
theorem eval_location_marker_witness :
    Returns dollarCtx ['$'] (Result.ret 256 []) ∧
    Returns dollarCtx ['$', '+', '5'] (Result.ret 261 []) :=
  eval_location_marker dollarCtx ['5'] (by decide) (by decide) (by decide) (by decide)

/-! ## Range checkers -/

/-- C14: `chk_v1 i` returns `i` and reports nothing exactly when
`-255 ≤ i ≤ 255`, and otherwise returns 0 and reports one `E_VALOUT`;
`chk_v2` does the same for `-127 ≤ i ≤ 127`.  Every result of `chk_v1` lies in
`[-255, 255]` and every result of `chk_v2` in `[-127, 127]`. -/
theorem chk_range (i : Int) :
    (chk_v1 i = (i, []) ↔ (-255 ≤ i ∧ i ≤ 255)) ∧
    ((-255 ≤ i ∧ i ≤ 255) ∨ chk_v1 i = (0, [Err.E_VALOUT])) ∧
    (-255 ≤ (chk_v1 i).1 ∧ (chk_v1 i).1 ≤ 255) ∧
    (chk_v2 i = (i, []) ↔ (-127 ≤ i ∧ i ≤ 127)) ∧
    ((-127 ≤ i ∧ i ≤ 127) ∨ chk_v2 i = (0, [Err.E_VALOUT])) ∧
    (-127 ≤ (chk_v2 i).1 ∧ (chk_v2 i).1 ≤ 127) ∧
    chk_v1 256 = (0, [Err.E_VALOUT]) ∧ chk_v1 255 = (255, []) ∧
    chk_v2 128 = (0, [Err.E_VALOUT]) ∧ chk_v2 (-127) = (-127, []) := by
  have h1 : (chk_v1 i = (i, []) ↔ (-255 ≤ i ∧ i ≤ 255)) ∧
      ((-255 ≤ i ∧ i ≤ 255) ∨ chk_v1 i = (0, [Err.E_VALOUT])) ∧
      (-255 ≤ (chk_v1 i).1 ∧ (chk_v1 i).1 ≤ 255) := by
    unfold chk_v1
    by_cases h : i ≥ -255 ∧ i ≤ 255
    · rw [if_pos h]
      exact ⟨⟨fun _ => h, fun _ => rfl⟩, Or.inl h, h⟩
    · rw [if_neg h]
      refine ⟨⟨fun he => ?_, fun hh => absurd hh h⟩, Or.inr rfl, by decide⟩
      exact List.noConfusion (Prod.mk.inj he).2
  have h2 : (chk_v2 i = (i, []) ↔ (-127 ≤ i ∧ i ≤ 127)) ∧
      ((-127 ≤ i ∧ i ≤ 127) ∨ chk_v2 i = (0, [Err.E_VALOUT])) ∧
      (-127 ≤ (chk_v2 i).1 ∧ (chk_v2 i).1 ≤ 127) := by
    unfold chk_v2
    by_cases h : i ≥ -127 ∧ i ≤ 127
    · rw [if_pos h]
      exact ⟨⟨fun _ => h, fun _ => rfl⟩, Or.inl h, h⟩
    · rw [if_neg h]
      refine ⟨⟨fun he => ?_, fun hh => absurd hh h⟩, Or.inr rfl, by decide⟩
      exact List.noConfusion (Prod.mk.inj he).2
  exact ⟨h1.1, h1.2.1, h1.2.2, h2.1, h2.2.1, h2.2.2, by decide, by decide, by decide,
    by decide⟩

/-! ## The hexadecimal converter -/

/-- C15: `axtoi` does not stop at a lower-case letter `a-f`: `isxdigit` accepts
it and the digit formula gives it the value `c - '7'`, so `1aH` converts to
`1 * 16 + 42 = 58`, while the base-16 value of its longest prefix over
`0-9A-F` is 1. -/
theorem axtoi_lowercase :
    axtoi ['1', 'a', 'H'] = 58 ∧
    hexVal (List.takeWhile hexChar ['1', 'a', 'H']) = 1 ∧
    Returns exampleCtx ['1', 'a', 'H'] (Result.ret 58 []) ∧
    Returns exampleCtx ['1', 'A', 'H'] (Result.ret 26 []) :=
  ⟨by decide, by decide, ⟨2, by decide⟩, ⟨2, by decide⟩⟩

/-! ## Token classification -/

theorem get_type_classify (t : List Char) (h : t ≠ []) :
    get_type t = classify (t.head h) (t.getLast h) := by
  cases t with
  | nil => exact absurd rfl h
  | cons c w =>
    have hl : (c :: w).getLast?.getD c = (c :: w).getLast h := by
      rw [List.getLast?_eq_getLast _ h]
      rfl
    show get_type (c :: w) = classify c ((c :: w).getLast h)
    unfold get_type classify opKind
    dsimp only
    rw [hl]

/-- A word whose kind is `OPESYM` and that is not `$`, at the loop head: the
first `SYMSIZE` characters are looked up. -/
theorem evalLoop_symbol_kind (ctx : Ctx) (n : Nat) (val : Int) (c : Char) (w t : List Char)
    (hw : ∀ x ∈ c :: w, wordChar x = true) (hp : c ≠ '(') (hq : c ≠ STRSEP)
    (hk : get_type (c :: w) = Ope.OPESYM) (hdollar : c :: w ≠ ['$'])
    (ht : stopsWord t) (hl : (c :: w).length < ctx.LINE_MAX) :
    evalLoop ctx (n + 1) val ((c :: w) ++ t) =
      match ctx.get_sym ((c :: w).take ctx.SYMSIZE) with
      | some v => evalLoop ctx n v t
      | none => asmerr Err.E_UNDSYM (evalLoop ctx n val t) := by
  show evalBody ctx (evalLoop ctx n) val ((c :: w) ++ t) = _
  rw [evalBody_word ctx _ val c w t hw hp hq ht hl]
  unfold evalSwitch
  rw [hk]
  dsimp only
  rw [if_neg hdollar, truncSym_eq]

/-- A digit-led word that `get_type` classifies as a symbol, alone. -/
theorem returns_digit_led_symbol (ctx : Ctx) (c : Char) (w : List Char)
    (hw : ∀ x ∈ c :: w, wordChar x = true) (hc : isdigit c = true)
    (hk : get_type (c :: w) = Ope.OPESYM) (hl : (c :: w).length < ctx.LINE_MAX) :
    Returns ctx (c :: w) (match ctx.get_sym ((c :: w).take ctx.SYMSIZE) with
      | some v => Result.ret v []
      | none => Result.ret 0 [Err.E_UNDSYM]) := by
  have hdollar : c :: w ≠ ['$'] := by
    intro he
    rw [(List.cons.inj he).1] at hc
    exact absurd hc (by decide)
  refine ⟨2, ?_⟩
  have h := evalLoop_symbol_kind ctx 1 0 c w [] hw (digit_ne_paren c hc)
    (digit_ne_STRSEP c hc) hk hdollar trivial hl
  rw [List.append_nil] at h
  show evalLoop ctx (1 + 1) 0 (c :: w) = _
  rw [h]
  cases ctx.get_sym ((c :: w).take ctx.SYMSIZE) with
  | some v => rfl
  | none => rfl

/-- C16: the kind of a non-empty token is the classification rule applied to
its first and its last character, so it depends on these two characters only.
Interior characters are not validated: `1A5` is the decimal parse 1 and `12B`
the binary parse 1; a digit-led token with another suffix, such as `5X` or
`12h`, is looked up as a symbol. -/
theorem get_type_first_last (ctx : Ctx) (t : List Char) (h : t ≠ [])
    (hl : 3 < ctx.LINE_MAX) :
    get_type t = classify (t.head h) (t.getLast h) ∧
    (∀ (u : List Char) (hu : u ≠ []), u.head hu = t.head h → u.getLast hu = t.getLast h →
      get_type u = get_type t) ∧
    get_type ['$'] = Ope.OPESYM ∧
    Returns ctx ['1', 'A', '5'] (Result.ret 1 []) ∧
    Returns ctx ['1', '2', 'B'] (Result.ret 1 []) ∧
    Returns ctx ['5', 'X'] (match ctx.get_sym (['5', 'X'].take ctx.SYMSIZE) with
      | some v => Result.ret v []
      | none => Result.ret 0 [Err.E_UNDSYM]) ∧
    Returns ctx ['1', '2', 'h'] (match ctx.get_sym (['1', '2', 'h'].take ctx.SYMSIZE) with
      | some v => Result.ret v []
      | none => Result.ret 0 [Err.E_UNDSYM]) := by
  have hword : ∀ (c : Char) (w : List Char) (x : Int),
      (∀ y ∈ c :: w, wordChar y = true) → isdigit c = true → (c :: w).length ≤ 3 →
      (∀ rec, evalSwitch ctx rec 0 (c :: w) [] = rec x []) →
      Returns ctx (c :: w) (Result.ret x []) := by
    intro c w x hw hc hlen hsw
    refine ⟨2, ?_⟩
    have h1 := evalBody_word ctx (evalLoop ctx 1) 0 c w [] hw (digit_ne_paren c hc)
      (digit_ne_STRSEP c hc) trivial (by omega)
    rw [List.append_nil] at h1
    show evalBody ctx (evalLoop ctx 1) 0 (c :: w) = _
    rw [h1, hsw]
    rfl
  refine ⟨get_type_classify t h, ?_, by decide, ?_, ?_, ?_, ?_⟩
  · intro u hu hh hlast
    rw [get_type_classify u hu, get_type_classify t h, hh, hlast]
  · apply hword '1' ['A', '5'] 1 (by decide) (by decide) (by decide)
    intro rec
    unfold evalSwitch
    have hg : get_type ['1', 'A', '5'] = Ope.OPEDEC := by decide
    have ha : atoi ['1', 'A', '5'] = 1 := by decide
    rw [hg, ha]
  · apply hword '1' ['2', 'B'] 1 (by decide) (by decide) (by decide)
    intro rec
    unfold evalSwitch
    have hg : get_type ['1', '2', 'B'] = Ope.OPEBIN := by decide
    have ha : abtoi ['1', '2', 'B'] = 1 := by decide
    rw [hg, ha]
  · exact returns_digit_led_symbol ctx '5' ['X'] (by decide) (by decide) (by decide)
      (by simp only [List.length_cons, List.length_nil]; omega)
  · exact returns_digit_led_symbol ctx '1' ['2', 'h'] (by decide) (by decide) (by decide)
      (by simp only [List.length_cons, List.length_nil]; omega)

/-- Witness of C16: `12H` is classified like `1H`, and in the example context
`5X` is an undefined symbol. -/
theorem get_type_first_last_witness :
    get_type ['1', '2', 'H'] = Ope.OPEHEX ∧
    Returns exampleCtx ['5', 'X'] (Result.ret 0 [Err.E_UNDSYM]) :=
  ⟨(get_type_first_last exampleCtx ['1', '2', 'H'] (by decide) (by decide)).1,
   (get_type_first_last exampleCtx ['1', '2', 'H'] (by decide) (by decide)).2.2.2.2.2.1⟩

/-! ## Nested parentheses -/

/-- C17: the group scan stops at the first `)`.  For a body `b` without `)`
(a C string that fits the token buffer) and a symbol table in which the lookup
of the token `)` fails, `((b))` does not evaluate `b`: the inner group `(b` is
unterminated, `E_MISPAR` is reported (followed by `E_UNDSYM` for the token
`)` left over) and the result is 0. -/
theorem eval_nested_parentheses (ctx : Ctx) (b : List Char)
    (hb : ∀ c ∈ b, c ≠ ')' ∧ c.toNat ≠ 0) (hl : b.length + 1 < ctx.LINE_MAX)
    (hsym : ctx.get_sym ([')'].take ctx.SYMSIZE) = none) :
    Returns ctx ('(' :: '(' :: (b ++ [')', ')'])) (Result.ret 0 [Err.E_MISPAR, Err.E_UNDSYM]) := by
  have hg : ∀ c ∈ '(' :: b, c ≠ ')' ∧ c.toNat ≠ 0 := by
    intro c hc
    rcases List.mem_cons.1 hc with h | h
    · rw [h]; decide
    · exact hb c h
  have hinner : evalLoop ctx 1 0 ('(' :: b) = some (Result.ret 0 [Err.E_MISPAR]) :=
    evalLoop_paren_unclosed ctx 0 0 b (fun c hc => (hb c hc).1) (by omega)
  have hst : symbolToken [')'] :=
    ⟨by decide, by decide, ')', [], rfl, by decide, by decide, by decide⟩
  have hrest : evalLoop ctx 2 0 [')'] = some (Result.ret 0 [Err.E_UNDSYM]) := by
    have h := evalLoop_symbol ctx 1 0 [')'] [] hst trivial
      (by have := ctx.LINE_MAX_gt; simp only [List.length_singleton]; omega)
    rw [List.append_nil, hsym] at h
    exact h
  have h := evalLoop_paren_ret ctx 1 2 0 ('(' :: b) [')'] 0 0 [Err.E_MISPAR] [Err.E_UNDSYM] hg
    (by simp only [List.length_cons]; omega) hinner hrest
  exact ⟨max 1 2 + 1, h⟩

/-- Witness of C17: `((1+2))` is 0 although `1+2` is 3. -/
theorem eval_nested_parentheses_witness :
    Returns exampleCtx ['(', '(', '1', '+', '2', ')', ')']
      (Result.ret 0 [Err.E_MISPAR, Err.E_UNDSYM]) ∧
    Returns exampleCtx ['1', '+', '2'] (Result.ret 3 []) :=
  ⟨eval_nested_parentheses exampleCtx ['1', '+', '2'] (by decide) (by decide) (by decide),
   ⟨5, by decide⟩⟩

/-! ## Shifts: lemmas -/

theorem shr_eq_lsr32_of_nonneg (v : Int) (n : Nat) (h0 : 0 ≤ v) (h1 : v ≤ INT_MAX) :
    v / 2 ^ n = lsr32 v n := by
  unfold INT_MAX at h1
  have hp : (0 : Int) < 2 ^ n := by positivity
  have hq0 : 0 ≤ v / 2 ^ n := Int.ediv_nonneg h0 (le_of_lt hp)
  have hq1 : v / 2 ^ n ≤ v := Int.ediv_le_self _ h0
  have hm : v % 4294967296 = v := Int.emod_eq_of_lt h0 (by omega)
  unfold lsr32
  rw [hm]
  exact (wrap32_of_range _ (by omega) (by omega)).symm

theorem shr_lt_lsr32_of_neg (v : Int) (n : Nat) (h0 : v < 0) (hn : 1 ≤ n) :
    v / 2 ^ n < lsr32 v n := by
  have hp : (0 : Int) < 2 ^ n := by positivity
  have hneg : v / 2 ^ n < 0 := Int.ediv_neg' h0 hp
  have hm0 : 0 ≤ v % 4294967296 := Int.emod_nonneg _ (by decide)
  have hm1 : v % 4294967296 < 4294967296 := Int.emod_lt_of_pos _ (by decide)
  have h2 : (2 : Int) ≤ 2 ^ n := by
    calc (2 : Int) = 2 ^ 1 := by norm_num
      _ ≤ 2 ^ n := pow_le_pow_right₀ (by norm_num) hn
  have hq0 : 0 ≤ (v % 4294967296) / 2 ^ n := Int.ediv_nonneg hm0 (le_of_lt hp)
  have hq1 : (v % 4294967296) / 2 ^ n < 2147483648 := by
    apply Int.ediv_lt_of_lt_mul hp
    nlinarith
  unfold lsr32
  rw [wrap32_of_range _ (by omega) (by omega)]
  omega

/-- A symbol bound to `v`, a shift operator and a decimal count `d ≤ 31`: `>`
divides by `2 ^ d` rounding down (the sign is kept), `<` multiplies by `2 ^ d`
in 32 bits. -/
theorem returns_symbol_shift (ctx : Ctx) (w d : List Char) (v : Int)
    (hw : symbolToken w) (hl : w.length < ctx.LINE_MAX)
    (hv : ctx.get_sym (w.take ctx.SYMSIZE) = some v)
    (hne : d ≠ []) (hd : ∀ c ∈ d, isdigit c = true) (hfit : decVal d ≤ 31)
    (hdl : d.length < ctx.LINE_MAX) :
    Returns ctx (w ++ '>' :: d) (Result.ret (v / 2 ^ decVal d) []) ∧
    Returns ctx (w ++ '<' :: d) (Result.ret (wrap32 (v * 2 ^ decVal d)) []) := by
  have hfit2 : (decVal d : Int) ≤ INT_MAX := by
    unfold INT_MAX; omega
  obtain ⟨n, hn⟩ := returns_decimal ctx d hne hd hfit2 hdl
  have hrange : (0 : Int) ≤ (decVal d : Int) ∧ (decVal d : Int) < 32 := by omega
  have hshr : applyOp (get_type ['>']) v (decVal d) = Except.ok (v / 2 ^ decVal d) := by
    show (if (0 : Int) ≤ (decVal d : Int) ∧ (decVal d : Int) < 32
      then Except.ok (v / 2 ^ (decVal d : Int).toNat)
      else Except.error Fault.shiftCount) = _
    rw [if_pos hrange, Int.toNat_ofNat]
  have hshl : applyOp (get_type ['<']) v (decVal d) =
      Except.ok (wrap32 (v * 2 ^ decVal d)) := by
    show (if (0 : Int) ≤ (decVal d : Int) ∧ (decVal d : Int) < 32
      then Except.ok (wrap32 (v * 2 ^ (decVal d : Int).toNat))
      else Except.error Fault.shiftCount) = _
    rw [if_pos hrange, Int.toNat_ofNat]
  constructor
  · refine ⟨n + 2, ?_⟩
    show evalLoop ctx (n + 1 + 1) 0 (w ++ '>' :: d) = _
    rw [evalLoop_symbol ctx (n + 1) 0 w ('>' :: d) hw (stopsWord_ari '>' d (by decide)) hl, hv]
    exact evalLoop_ari_ret ctx n v '>' d _ _ [] (by decide) hn hshr
  · refine ⟨n + 2, ?_⟩
    show evalLoop ctx (n + 1 + 1) 0 (w ++ '<' :: d) = _
    rw [evalLoop_symbol ctx (n + 1) 0 w ('<' :: d) hw (stopsWord_ari '<' d (by decide)) hl, hv]
    exact evalLoop_ari_ret ctx n v '<' d _ _ [] (by decide) hn hshl

/-! ## Shifts -/

/-- C18: `>` is the shift of a signed `int`, which keeps the sign: with `X`
bound to -8, `X>1` is -4, while the zero-filling shift of the 32-bit pattern of
-8 is 2147483644.  For a value that is not negative the two agree (`16>2` is
4; in general `shr_eq_lsr32_of_nonneg`), and `X<1` is -16. -/
theorem eval_shift_right_keeps_sign :
    Returns exampleCtx ['X', '>', '1'] (Result.ret (-4) []) ∧
    lsr32 (-8) 1 = 2147483644 ∧
    Returns exampleCtx ['1', '6', '>', '2'] (Result.ret 4 []) ∧
    lsr32 16 2 = 4 ∧
    Returns exampleCtx ['X', '<', '1'] (Result.ret (-16) []) :=
  ⟨⟨4, by decide⟩, by decide, ⟨4, by decide⟩, by decide, ⟨4, by decide⟩⟩

/-! ## Progress of the scanning loops: lemmas -/

theorem scanParen_progress (s : List Char) :
    (scanParen s).1.length ≤ s.length ∧ (∀ c ∈ (scanParen s).1, c ∈ s) ∧
    ∀ s2, (scanParen s).2 = some s2 → s2.length < s.length ∧ ∀ c ∈ s2, c ∈ s := by
  induction s with
  | nil =>
    refine ⟨le_refl _, fun c hc => hc, ?_⟩
    intro s2 h
    exact Option.noConfusion h
  | cons c s ih =>
    unfold scanParen
    by_cases h1 : c = ')'
    · rw [if_pos h1]
      refine ⟨Nat.zero_le _, fun x hx => absurd hx (List.not_mem_nil x), ?_⟩
      intro s2 h
      have e : s = s2 := Option.some.inj h
      rw [← e]
      exact ⟨Nat.lt_succ_self _, fun x hx => List.mem_cons_of_mem _ hx⟩
    · rw [if_neg h1]
      by_cases h0 : c.toNat = 0
      · rw [if_pos h0]
        refine ⟨Nat.zero_le _, fun x hx => absurd hx (List.not_mem_nil x), ?_⟩
        intro s2 h
        exact Option.noConfusion h
      · rw [if_neg h0]
        refine ⟨Nat.succ_le_succ ih.1, ?_, ?_⟩
        · intro x hx
          rcases List.mem_cons.1 hx with h | h
          · rw [h]; exact List.mem_cons_self _ _
          · exact List.mem_cons_of_mem _ (ih.2.1 x h)
        · intro s2 h
          have := ih.2.2 s2 h
          exact ⟨Nat.lt_succ_of_lt this.1, fun x hx => List.mem_cons_of_mem _ (this.2 x hx)⟩

theorem scanQuote_progress (s : List Char) :
    (scanQuote s).1.length ≤ s.length ∧ (scanQuote s).2.1.length ≤ s.length ∧
    ∀ c ∈ (scanQuote s).2.1, c ∈ s := by
  induction s with
  | nil => exact ⟨le_refl _, le_refl _, fun c hc => hc⟩
  | cons c s ih =>
    unfold scanQuote
    by_cases h1 : c = STRSEP
    · rw [if_pos h1]
      exact ⟨Nat.zero_le _, Nat.le_succ _, fun x hx => List.mem_cons_of_mem _ hx⟩
    · rw [if_neg h1]
      by_cases h0 : c = '\n' ∨ c.toNat = 0
      · rw [if_pos h0]
        exact ⟨Nat.zero_le _, le_refl _, fun x hx => hx⟩
      · rw [if_neg h0]
        exact ⟨Nat.succ_le_succ ih.1, Nat.le_succ_of_le ih.2.1,
          fun x hx => List.mem_cons_of_mem _ (ih.2.2 x hx)⟩

theorem scanWord_progress (s : List Char) :
    (scanWord s).1.length + (scanWord s).2.length = s.length ∧
    ∀ c ∈ (scanWord s).2, c ∈ s := by
  induction s with
  | nil => exact ⟨rfl, fun c hc => hc⟩
  | cons c s ih =>
    unfold scanWord
    by_cases h1 : (!isspace c && !isari c && decide (c.toNat ≠ 0)) = true
    · rw [if_pos h1]
      refine ⟨?_, fun x hx => List.mem_cons_of_mem _ (ih.2 x hx)⟩
      show ((scanWord s).1.length + 1) + (scanWord s).2.length = s.length + 1
      omega
    · rw [if_neg h1]
      exact ⟨by simp, fun x hx => hx⟩

/-! ## Termination: lemmas -/

theorem Terminates_ret (v : Int) (ds : List Err) : Terminates (some (Result.ret v ds)) :=
  ⟨_, rfl, fun h => Result.noConfusion h⟩

theorem asmerr_terminates (e : Err) (o : Option Result) (h : Terminates o) :
    Terminates (asmerr e o) := by
  obtain ⟨r, rfl, hr⟩ := h
  cases r with
  | ret v ds => exact Terminates_ret v (e :: ds)
  | fault f => exact ⟨_, rfl, hr⟩

theorem andThen_terminates (a : Option Result) (k : Int → Option Result)
    (ha : Terminates a) (hk : ∀ v, Terminates (k v)) : Terminates (andThen a k) := by
  obtain ⟨r, rfl, hr⟩ := ha
  cases r with
  | fault f => exact ⟨_, rfl, hr⟩
  | ret v ds =>
    obtain ⟨r2, h2, hr2⟩ := hk v
    cases r2 with
    | fault f => exact ⟨Result.fault f, by simp only [andThen, h2], hr2⟩
    | ret w es => exact ⟨Result.ret w (ds ++ es), by simp only [andThen, h2],
        fun h => Result.noConfusion h⟩

theorem applyOp_ne_overrun (op : Ope) (a b : Int) :
    applyOp op a b ≠ Except.error Fault.wordOverrun := by
  cases op <;> unfold applyOp <;> dsimp only <;> intro h
  case OPEDIV =>
    by_cases h1 : b = 0
    · rw [if_pos h1] at h; exact Fault.noConfusion (Except.error.inj h)
    · rw [if_neg h1] at h
      by_cases h2 : a = INT_MIN ∧ b = -1
      · rw [if_pos h2] at h; exact Fault.noConfusion (Except.error.inj h)
      · rw [if_neg h2] at h; exact Except.noConfusion h
  case OPEMOD =>
    by_cases h1 : b = 0
    · rw [if_pos h1] at h; exact Fault.noConfusion (Except.error.inj h)
    · rw [if_neg h1] at h
      by_cases h2 : a = INT_MIN ∧ b = -1
      · rw [if_pos h2] at h; exact Fault.noConfusion (Except.error.inj h)
      · rw [if_neg h2] at h; exact Except.noConfusion h
  case OPESHL =>
    by_cases h1 : 0 ≤ b ∧ b < 32
    · rw [if_pos h1] at h; exact Except.noConfusion h
    · rw [if_neg h1] at h; exact Fault.noConfusion (Except.error.inj h)
  case OPESHR =>
    by_cases h1 : 0 ≤ b ∧ b < 32
    · rw [if_pos h1] at h; exact Except.noConfusion h
    · rw [if_neg h1] at h; exact Fault.noConfusion (Except.error.inj h)
  all_goals exact Except.noConfusion h

theorem opCase_terminates (op : Ope) (val : Int) (a : Option Result) (ha : Terminates a) :
    Terminates (opCase op val a) := by
  apply andThen_terminates a _ ha
  intro x
  have hne := applyOp_ne_overrun op val x
  cases hx : applyOp op val x with
  | ok v => exact Terminates_ret v []
  | error f =>
    refine ⟨Result.fault f, rfl, ?_⟩
    intro h
    rw [hx, Result.fault.inj h] at hne
    exact hne rfl

theorem evalSwitch_terminates (ctx : Ctx) (rec : Int → List Char → Option Result)
    (val : Int) (word s : List Char) (hrec : ∀ v, Terminates (rec v s)) :
    Terminates (evalSwitch ctx rec val word s) := by
  unfold evalSwitch
  generalize get_type word = t
  cases t
  case OPESYM =>
    dsimp only
    by_cases hw : word = ['$']
    · rw [if_pos hw]; exact hrec _
    · rw [if_neg hw]
      generalize ctx.get_sym (truncSym ctx word) = o
      cases o with
      | some v => exact hrec v
      | none => exact asmerr_terminates _ _ (hrec val)
  case OPEDEC => exact hrec _
  case OPEHEX => exact hrec _
  case OPEBIN => exact hrec _
  case OPEOCT => exact hrec _
  all_goals exact opCase_terminates _ _ _ (hrec 0)

/-- One iteration on input without white space that fits the buffer, when the
runs from every shorter such input terminate. -/
theorem evalBody_terminates (ctx : Ctx) (rec : Int → List Char → Option Result) (n : Nat)
    (hrec : ∀ (t : List Char) (v : Int), t.length < n → (∀ c ∈ t, isspace c = false) →
      t.length < ctx.LINE_MAX → Terminates (rec v t))
    (val : Int) (s : List Char) (hn : s.length < n + 1)
    (hs : ∀ c ∈ s, isspace c = false) (hl : s.length < ctx.LINE_MAX) :
    Terminates (evalBody ctx rec val s) := by
  cases s with
  | nil => exact Terminates_ret val []
  | cons c s1 =>
    have hlen : s1.length < n := by
      simp only [List.length_cons] at hn; omega
    have hl1 : s1.length + 1 < ctx.LINE_MAX := by
      simp only [List.length_cons] at hl; exact hl
    have hs1 : ∀ x ∈ s1, isspace x = false := fun x hx => hs x (List.mem_cons_of_mem _ hx)
    rw [evalBody_cons]
    by_cases h0 : c.toNat = 0
    · rw [if_pos h0]; exact Terminates_ret val []
    rw [if_neg h0]
    by_cases hp : c = '('
    · rw [if_pos hp]
      have hsp := scanParen_progress s1
      generalize scanParen s1 = sp at hsp
      obtain ⟨word, o⟩ := sp
      have hw1 : word.length ≤ s1.length := hsp.1
      have hw2 : ∀ x ∈ word, x ∈ s1 := hsp.2.1
      cases o with
      | none =>
        dsimp only
        rw [if_neg (by omega)]
        exact Terminates_ret val [Err.E_MISPAR]
      | some s2 =>
        have h2 := hsp.2.2 s2 rfl
        have h2l : s2.length < s1.length := h2.1
        dsimp only
        rw [if_neg (by omega)]
        apply andThen_terminates
        · exact hrec word 0 (by omega) (fun x hx => hs1 x (hw2 x hx)) (by omega)
        · intro v
          exact hrec s2 v (by omega) (fun x hx => hs1 x (h2.2 x hx)) (by omega)
    rw [if_neg hp]
    by_cases hq : c = STRSEP
    · rw [if_pos hq]
      have hsq := scanQuote_progress s1
      generalize scanQuote s1 = sq at hsq
      obtain ⟨word, s2, closed⟩ := sq
      have hw1 : word.length ≤ s1.length := hsq.1
      have h2l : s2.length ≤ s1.length := hsq.2.1
      have h2m : ∀ x ∈ s2, x ∈ s1 := hsq.2.2
      have hr := hrec s2 (strval word) (by omega) (fun x hx => hs1 x (h2m x hx)) (by omega)
      dsimp only
      rw [if_neg (by omega)]
      cases closed with
      | true => exact hr
      | false => exact asmerr_terminates _ _ hr
    rw [if_neg hq]
    by_cases ha : isari c = true
    · rw [if_pos ha]
      dsimp only
      have hone : ¬ [c].length ≥ ctx.LINE_MAX := by
        simp only [List.length_singleton]; omega
      rw [if_neg hone]
      exact evalSwitch_terminates ctx rec val [c] s1
        (fun v => hrec s1 v hlen hs1 (by omega))
    · rw [if_neg ha]
      have hsw := scanWord_progress (c :: s1)
      have hcw : (!isspace c && !isari c && decide (c.toNat ≠ 0)) = true := by
        have hsc := hs c (List.mem_cons_self _ _)
        have hac : isari c = false := by
          cases h : isari c with
          | false => rfl
          | true => exact absurd h ha
        rw [hsc, hac]
        simp only [Bool.not_false, Bool.and_self, Bool.true_and, decide_eq_true_eq]
        exact h0
      have hunf : scanWord (c :: s1) = (c :: (scanWord s1).1, (scanWord s1).2) := by
        show (if (!isspace c && !isari c && decide (c.toNat ≠ 0)) = true then
          (c :: (scanWord s1).1, (scanWord s1).2) else ([], c :: s1)) = _
        rw [if_pos hcw]
      have hsw1 := scanWord_progress s1
      rw [hunf]
      dsimp only
      have hwl : ¬ (c :: (scanWord s1).1).length ≥ ctx.LINE_MAX := by
        simp only [List.length_cons]; omega
      rw [if_neg hwl]
      exact evalSwitch_terminates ctx rec val _ _
        (fun v => hrec (scanWord s1).2 v (by omega) (fun x hx => hs1 x (hsw1.2 x hx))
          (by omega))

theorem evalLoop_terminates (ctx : Ctx) (n : Nat) :
    ∀ (s : List Char) (val : Int), s.length < n → (∀ c ∈ s, isspace c = false) →
      s.length < ctx.LINE_MAX → Terminates (evalLoop ctx n val s) := by
  induction n with
  | zero => intro s val h; exact absurd h (Nat.not_lt_zero _)
  | succ n ih =>
    intro s val hn hs hl
    exact evalBody_terminates ctx (evalLoop ctx n) n ih val s hn hs hl

/-! ## Termination on input without white space -/

/-- C19: on an operand without white space that fits the token buffer, `eval`
terminates, with a value or with an arithmetic fault (division or modulo by
zero, `INT_MIN / -1`, a shift count out of range) and without overrunning the
buffer: a fuel of the input length plus one suffices, so the nesting of
iterations and calls is at most the input length plus one. -/
theorem eval_terminates_without_space (ctx : Ctx) (s : List Char)
    (hs : ∀ c ∈ s, isspace c = false) (hl : s.length < ctx.LINE_MAX) :
    ∃ r, eval ctx (s.length + 1) s = some r ∧ r ≠ Result.fault Fault.wordOverrun :=
  evalLoop_terminates ctx (s.length + 1) s 0 (Nat.lt_succ_self _) hs hl

/-- Witness of C19: `(2+3)*4` terminates within eight nested iterations and
calls. -/
theorem eval_terminates_without_space_witness :
    ∃ r, eval exampleCtx 8 ['(', '2', '+', '3', ')', '*', '4'] = some r ∧
      r ≠ Result.fault Fault.wordOverrun :=
  eval_terminates_without_space exampleCtx ['(', '2', '+', '3', ')', '*', '4'] (by decide)
    (by decide)

/-! ## A leading sign -/

/-- C20: the accumulator starts at 0, so for a rest `r` on which `eval` returns
`v`, `-r` evaluates to `-v` and `+r` to `v` (32-bit wrapping; `+r` is `v`
itself for `v` an `int`), with the diagnostics of `r`.  For decimal literals,
`-a` is `-a` and `-a+b` is `-(a + b)`. -/
theorem eval_leading_sign (ctx : Ctx) (r : List Char) (v : Int) (ds : List Err)
    (hr : Returns ctx r (Result.ret v ds)) :
    Returns ctx ('-' :: r) (Result.ret (wrap32 (-v)) ds) ∧
    Returns ctx ('+' :: r) (Result.ret (wrap32 v) ds) ∧
    (INT_MIN ≤ v → v ≤ INT_MAX → Returns ctx ('+' :: r) (Result.ret v ds)) ∧
    (∀ a : List Char, a ≠ [] → (∀ y ∈ a, isdigit y = true) →
      (decVal a : Int) ≤ INT_MAX → a.length < ctx.LINE_MAX →
      Returns ctx ('-' :: a) (Result.ret (-(decVal a : Int)) []) ∧
      ∀ b : List Char, b ≠ [] → (∀ y ∈ b, isdigit y = true) →
        (decVal b : Int) ≤ INT_MAX → b.length < ctx.LINE_MAX →
        Returns ctx ('-' :: (a ++ '+' :: b))
          (Result.ret (wrap32 (-(wrap32 ((decVal a : Int) + decVal b)))) [])) := by
  have sign : ∀ (t : List Char) (x : Int) (es : List Err), Returns ctx t (Result.ret x es) →
      Returns ctx ('-' :: t) (Result.ret (wrap32 (-x)) es) ∧
      Returns ctx ('+' :: t) (Result.ret (wrap32 x) es) := by
    intro t x es ht
    obtain ⟨n, hn⟩ := ht
    have hm : applyOp (get_type ['-']) 0 x = Except.ok (wrap32 (-x)) := by
      show Except.ok (wrap32 (0 - x)) = _
      rw [zero_sub]
    have hp : applyOp (get_type ['+']) 0 x = Except.ok (wrap32 x) := by
      show Except.ok (wrap32 (0 + x)) = _
      rw [zero_add]
    exact ⟨⟨n + 1, evalLoop_ari_ret ctx n 0 '-' t x _ es (by decide) hn hm⟩,
      ⟨n + 1, evalLoop_ari_ret ctx n 0 '+' t x _ es (by decide) hn hp⟩⟩
  have h1 := sign r v ds hr
  refine ⟨h1.1, h1.2, ?_, ?_⟩
  · intro hlo hhi
    have e : wrap32 v = v := by
      unfold INT_MIN at hlo
      unfold INT_MAX at hhi
      exact wrap32_of_range v hlo hhi
    rw [e] at h1
    exact h1.2
  · intro a hne ha hfit hl
    constructor
    · have h2 := (sign a _ [] (returns_decimal ctx a hne ha hfit hl)).1
      have e : wrap32 (-(decVal a : Int)) = -(decVal a : Int) := by
        unfold INT_MAX at hfit
        exact wrap32_of_range _ (by omega) (by omega)
      rw [e] at h2
      exact h2
    · intro b hbne hb hbfit hbl
      have hB := returns_decimal ctx b hbne hb hbfit hbl
      have hAB := returns_literal_op ctx a b '+' _ (wrap32 ((decVal a : Int) + decVal b)) []
        hne ha hfit hl (by decide) hB rfl
      exact (sign _ _ [] hAB).1

/-- Witness of C20: `-5` is -5, `-5+3` is -8 and `+5` is 5. -/
theorem eval_leading_sign_witness :
    Returns exampleCtx ['-', '5'] (Result.ret (-5) []) ∧
    Returns exampleCtx ['-', '5', '+', '3'] (Result.ret (-8) []) ∧
    Returns exampleCtx ['+', '5'] (Result.ret 5 []) :=
  ⟨((eval_leading_sign exampleCtx ['5'] 5 [] ⟨2, by decide⟩).2.2.2 ['5'] (by decide)
      (by decide) (by decide) (by decide)).1,
   ((eval_leading_sign exampleCtx ['5'] 5 [] ⟨2, by decide⟩).2.2.2 ['5'] (by decide)
      (by decide) (by decide) (by decide)).2 ['3'] (by decide) (by decide) (by decide)
      (by decide),
   (eval_leading_sign exampleCtx ['5'] 5 [] ⟨2, by decide⟩).2.2.1 (by decide) (by decide)⟩

end Z80asm
